import Mathlib

/-!
Verification development for the pattern-linearization engine of
`utils/TableGen/SemanticsEmitter.cpp`: a shallow embedding of the tree
linearizer, the constant pool, the selector-name sanitizer and the
instruction collector, together with theorems about the behaviour of the
embedded definitions.

Machine integers are modelled as `Nat` with explicit `% 2 ^ w` where the
source relies on fixed-width behaviour (the `uint16_t` constant-pool
counter, the `uint64_t` rendering of `Idx - 1`).  Fatal paths
(`PrintFatalError`, `llvm_unreachable`, failed `assert`) are modelled as
`Except.error`; the recursive tree walk is driven by explicit fuel, so
every function is a total, executable definition.
-/

set_option linter.unusedVariables false
set_option linter.unnecessarySimpa false

deriving instance DecidableEq for Except

/-- Modelled from the spec: the concrete result-type enumeration carried by
tree nodes (`MVT::SimpleValueType`).  `isVoid` is the no-result marker and
`Untyped` the opaque "from an intrinsic" marker; a handful of ordinary
concrete types is enough for the linearizer, which only ever compares
against `isVoid` and `Untyped`. -/
inductive VT
  | isVoid
  | Untyped
  | i1
  | i8
  | i16
  | i32
  | i64
  | f32
  | f64
deriving DecidableEq, Repr

/-- Modelled from the spec: the classification of a TableGen record that the
linearizer queries through `isSubClassOf` (register, register class,
register operand wrapping a class, plain operand, or anything else). -/
inductive TGRecord
  | operand (name : String)
  | registerClass (name : String)
  | registerOperand (regClassName : String)
  | register (name : String)
  | other (name : String)
deriving DecidableEq, Repr

/-- `RegisterOperands are the same thing as RegisterClasses`: the unwrap
performed by `flattenOperand` and `flattenSet`. -/
def unwrapRegOperand : TGRecord → TGRecord
  | .registerOperand rc => .registerClass rc
  | r => r

/-- Modelled from the spec: one entry of `CGIOperandList` — name, backing
record, operand-type string and physical operand slot (`MIOperandNo`). -/
structure OperandInfo where
  name : String
  backingRec : TGRecord
  operandType : String
  mioperandNo : Nat
deriving DecidableEq, Repr

/-- Modelled from the spec: the operator of a composite tree node, already
classified the way the source classifies records (`set`, `implicit`, an
`SDNode` record with its enum name, or a `ComplexPattern` record with its
declared selector function). -/
inductive Operator
  | setOp
  | implicitOp
  | sdnode (recName : String) (enumName : String)
  | complexPattern (selectFunc : String)
deriving DecidableEq, Repr

/-- Modelled from the spec: a leaf value — either a compile-time integer
constant (`IntInit`, 64-bit value) or a record reference (`DefInit`). -/
inductive LeafVal
  | intLeaf (v : Nat)
  | defLeaf (r : TGRecord)
deriving DecidableEq, Repr

/-- Modelled from the spec: a `TreePatternNode` after parsing and type
inference.  Each node carries its name, its fully resolved result types,
and — for composite nodes — the operator, attached predicate records, the
externally supplied intrinsic / complex-pattern annotations
(`getIntrinsicInfo` / `getComplexPatternInfo`) and the child list. -/
inductive TPN
  | leaf (name : String) (types : List VT) (lv : LeafVal)
  | node (name : String) (types : List VT) (op : Operator) (preds : List String)
      (intrinsicInfo : Bool) (cpInfo : Bool) (children : List TPN)

def TPN.name : TPN → String
  | .leaf nm _ _ => nm
  | .node nm _ _ _ _ _ _ => nm

def TPN.types : TPN → List VT
  | .leaf _ ts _ => ts
  | .node _ ts _ _ _ _ _ => ts

def TPN.numTypes (t : TPN) : Nat := t.types.length

/-- One operand of an emitted operation.  The source renders every operand
to a string; the embedding keeps the provenance of each `addOperand` call
site so that value-number references can be distinguished from literal
encodings. -/
inductive MOperand
  | valueRef (n : Nat)
  | slotIdx (n : Nat)
  | constIdx (n : Nat)
  | regName (s : String)
  | opTypeName (s : String)
  | cpKind (s : String)
  | predName (s : String)
deriving DecidableEq, Repr

/-- `LSNode`: one micro-operation of the linear program. -/
structure LSNode where
  opcode : String
  types : List VT
  operands : List MOperand
deriving DecidableEq, Repr

instance : Inhabited LSNode := ⟨⟨"", [], []⟩⟩

/-- `LSResult`: a produced result, as recorded by the linearizer (the
def-number index and the value type). -/
structure LSResult where
  defNo : Nat
  vt : VT
deriving DecidableEq, Repr

def LSResults := List LSResult
deriving instance DecidableEq for LSResults

/-- The process-wide constant pool: `std::map<uint64_t, uint16_t>
ConstantIdx` (association list keyed by the 64-bit value) plus the
`uint16_t CurConstantIdx` counter.  There is no element at index 0. -/
structure PoolState where
  constantIdx : List (Nat × Nat)
  curConstantIdx : Nat
deriving DecidableEq, Repr

def cmLookup : List (Nat × Nat) → Nat → Option Nat
  | [], _ => none
  | (k, i) :: rest, v => if k = v then some i else cmLookup rest v

def cmSet : List (Nat × Nat) → Nat → Nat → List (Nat × Nat)
  | [], v, i => [(v, i)]
  | (k, j) :: rest, v, i =>
      if k = v then (v, i) :: rest else (k, j) :: cmSet rest v i

/-- `uint16_t &Idx = Target.ConstantIdx[OpInt->getValue()]; if (Idx == 0)
Idx = ++Target.CurConstantIdx;` — `operator[]` default-inserts 0, and the
`uint16_t` increment wraps modulo `2 ^ 16`. -/
def intern (v : Nat) (s : PoolState) : Nat × PoolState :=
  let idx := (cmLookup s.constantIdx v).getD 0
  if idx = 0 then
    let c := (s.curConstantIdx + 1) % 65536
    (c, ⟨cmSet s.constantIdx v c, c⟩)
  else
    (idx, s)

def initPool : PoolState := ⟨[], 0⟩

/-- Interning a list of values in order, recording the returned indices. -/
def internTrace : List Nat → PoolState → List Nat × PoolState
  | [], s => ([], s)
  | v :: rest, s =>
    let p := intern v s
    let q := internTrace rest p.2
    (p.1 :: q.1, q.2)

/-- Modelled from the spec: the per-instruction context the linearizer
reads from the excluded pattern database — target namespace, the formal
operand list of the instruction, its declared implicit defs, and the
`SDNodeEquiv` table (target-specific record name to canonical enum name
and canonical result count). -/
structure InstCtx where
  nsName : String
  operands : List OperandInfo
  implicitDefs : List TGRecord
  equiv : List (String × String × Nat)
deriving Repr

def getNamedOperand (ctx : InstCtx) (nm : String) : Option OperandInfo :=
  if nm = "" then none
  else ctx.operands.find? (fun op => op.name == nm)

def eqLookup : List (String × String × Nat) → String → Option (String × Nat)
  | [], _ => none
  | (k, v) :: rest, nm => if k = nm then some v else eqLookup rest nm

def obLookup : List (String × Nat) → String → Option Nat
  | [], _ => none
  | (k, n) :: rest, nm => if k = nm then some n else obLookup rest nm

/-- The mutable state of one `LinearSemantics` run: the `InstSemantics`
fields, the `OperandByName` memo table, the running `CurDefNo` counter, and
the process-wide state (`ConstantIdx` pool and `EncounteredPredicates`)
threaded through. -/
structure LinState where
  semantics : List LSNode
  explicitDefs : List TGRecord
  implicitDefs : List TGRecord
  lastDefSemaIdx : Option Nat
  lastDefNo : Option Nat
  hasIntrinsic : Bool
  hasComplexPattern : Bool
  operandByName : List (String × Nat)
  curDefNo : Nat
  pool : PoolState
  encounteredPreds : List String
deriving DecidableEq, Repr

def initLin (pool : PoolState) (preds : List String) : LinState :=
  ⟨[], [], [], none, none, false, false, [], 0, pool, preds⟩

def countNonVoid (ts : List VT) : Nat :=
  (ts.filter (fun ty => match ty with | VT.isVoid => false | _ => true)).length

def hasUntyped (ts : List VT) : Bool :=
  ts.any (fun ty => match ty with | VT.Untyped => true | _ => false)

/-- `LinearSemantics::addSemantics`: append the operation, advance the
def-number counter past every non-void result, raise `HasIntrinsic` on an
`Untyped` result, and remember the last defining operation. -/
def addSemantics (ns : LSNode) (s : LinState) : LinState :=
  let firstDefNo := s.curDefNo
  let newDefNo := s.curDefNo + countNonVoid ns.types
  let hasIntr := s.hasIntrinsic || hasUntyped ns.types
  if firstDefNo ≠ newDefNo then
    { s with curDefNo := newDefNo, hasIntrinsic := hasIntr,
             lastDefNo := some firstDefNo,
             lastDefSemaIdx := some s.semantics.length,
             semantics := s.semantics ++ [ns] }
  else
    { s with curDefNo := newDefNo, hasIntrinsic := hasIntr,
             semantics := s.semantics ++ [ns] }

def startsWithSelect : List Char → Bool
  | 's' :: 'e' :: 'l' :: 'e' :: 'c' :: 't' :: _ => true
  | 'S' :: 'e' :: 'l' :: 'e' :: 'c' :: 't' :: _ => true
  | _ => false

/-- Replace the first occurrence of a lower-than bracket by an
underscore (`SF[Pos] = UnderscoreChar`). -/
def replaceLt : List Char → List Char
  | [] => []
  | c :: rest => if c = '<' then '_' :: rest else c :: replaceLt rest

def hasLt : List Char → Bool
  | [] => false
  | c :: rest => if c = '<' then true else hasLt rest

/-- `sanitizeSelectFuncToEnumVal`: require the selector function to start
with the select keyword, drop those six characters, and if the remainder
holds a bracket, replace it with an underscore and `pop_back()` the final
character of the whole remainder. -/
def sanitizeSelectFuncToEnumVal (f : String) : Except String String :=
  let cs := f.toList
  if startsWithSelect cs then
    let sf := cs.drop 6
    if hasLt sf then .ok (String.mk ((replaceLt sf).dropLast))
    else .ok (String.mk sf)
  else
    .error ("ComplexPattern func does not start with select: " ++ f)

/-- `LinearSemantics::flattenOperand`: operand reads.  Register-class (and
register-operand) backing emits `GET_RC`; immediate operand backing emits
`GET_IMMEDIATE`; any other operand backing emits `CUSTOM_OP` and is
memoized by operand name. -/
def flattenOperand (ctx : InstCtx) (t : TPN) (oi : OperandInfo) (s : LinState) :
    Except String (LSResult × LinState) :=
  match t.types with
  | [ty] =>
    match unwrapRegOperand oi.backingRec with
    | .operand opName =>
      if oi.operandType = "OPERAND_IMMEDIATE" then
        .ok (⟨s.curDefNo, ty⟩,
          addSemantics ⟨"DCINS::GET_IMMEDIATE", t.types, [.slotIdx oi.mioperandNo]⟩ s)
      else
        match obLookup s.operandByName oi.name with
        | some n => .ok (⟨n, ty⟩, s)
        | none =>
          let s1 := { s with operandByName := s.operandByName ++ [(oi.name, s.curDefNo)] }
          .ok (⟨s.curDefNo, ty⟩,
            addSemantics ⟨"DCINS::CUSTOM_OP", t.types,
              [.opTypeName (ctx.nsName ++ "::OpTypes::" ++ opName),
               .slotIdx oi.mioperandNo]⟩ s1)
    | .registerClass _ =>
      .ok (⟨s.curDefNo, ty⟩,
        addSemantics ⟨"DCINS::GET_RC", t.types, [.slotIdx oi.mioperandNo]⟩ s)
    | _ => .error "Unknown operand type"
  | _ => .error "assert failed: TPN.getExtTypes().size() == 1"

/-- `LinearSemantics::flattenLeaf`: a constant leaf emits `GET_CONSTANT`
whose operand renders `Idx - 1` with `uint16_t` to `uint64_t` promotion
(so index 0 underflows to `2 ^ 64 - 1`); a register leaf emits `GET_REG`. -/
def flattenLeaf (ctx : InstCtx) (t : TPN) (s : LinState) :
    Except String (LSResult × LinState) :=
  match t with
  | .leaf _ [ty] lv =>
    match lv with
    | .intLeaf v =>
      let p := intern v s.pool
      let opnd := if p.1 = 0 then 18446744073709551615 else p.1 - 1
      let s1 := { s with pool := p.2 }
      .ok (⟨s1.curDefNo, ty⟩,
        addSemantics ⟨"DCINS::GET_CONSTANT", [ty], [.constIdx opnd]⟩ s1)
    | .defLeaf r =>
      match r with
      | .register rn =>
        .ok (⟨s.curDefNo, ty⟩,
          addSemantics ⟨"DCINS::GET_REG", [ty],
            [.regName (ctx.nsName ++ "::" ++ rn)]⟩ s)
      | _ => .error "Unknown operand type"
  | _ => .error "flattenLeaf: expected a leaf with one type"

/-- `R.emplace_back(CurDefNo + i, ResVT)` for every non-void result type:
the result list recorded for a freshly emitted operation, indexed by the
position of the type in the list (voids included in the offset). -/
def mkResultsAux (c i : Nat) : List VT → List LSResult
  | [] => []
  | ty :: rest =>
    match ty with
    | VT.isVoid => mkResultsAux c (i + 1) rest
    | _ => ⟨c + i, ty⟩ :: mkResultsAux c (i + 1) rest

def mkResults (c : Nat) (ts : List VT) : List LSResult := mkResultsAux c 0 ts

def insertPred (p : String) (l : List String) : List String :=
  if l.contains p then l else l ++ [p]

mutual

/-- `LinearSemantics::flattenSubtree`: named operands first, then leaves,
then composite nodes. -/
def flattenSubtree (fuel : Nat) (ctx : InstCtx) (t : TPN) (s : LinState) :
    Except String (List LSResult × LinState) :=
  match fuel with
  | 0 => .error "out of fuel"
  | fuel + 1 =>
    match getNamedOperand ctx t.name with
    | some oi =>
      match flattenOperand ctx t oi s with
      | .error e => .error e
      | .ok (r, s1) => .ok ([r], s1)
    | none =>
      match t with
      | .leaf _ _ _ =>
        match flattenLeaf ctx t s with
        | .error e => .error e
        | .ok (r, s1) => .ok ([r], s1)
      | .node _ _ _ _ _ _ _ => flattenSDNode fuel ctx t s

/-- `LinearSemantics::flattenSDNode`: complex-pattern matcher nodes and
ordinary SDNode operations (equivalence rewrite, predicate wrapping,
children flattened keeping only each child's first result). -/
def flattenSDNode (fuel : Nat) (ctx : InstCtx) (t : TPN) (s : LinState) :
    Except String (List LSResult × LinState) :=
  match fuel with
  | 0 => .error "out of fuel"
  | fuel + 1 =>
    match t with
    | .leaf _ _ _ => .error "flattenSDNode: leaf has no operator"
    | .node _ ts op preds intrInfo cpInfo children =>
      match op with
      | .complexPattern sel =>
        let s0 := { s with
          hasIntrinsic := s.hasIntrinsic || intrInfo,
          hasComplexPattern := false }
        match sanitizeSelectFuncToEnumVal sel with
        | .error e => .error e
        | .ok sf =>
          match flattenChildren fuel ctx children s0 with
          | .error e => .error e
          | .ok (childRefs, s1) =>
            let ns : LSNode := ⟨"DCINS::COMPLEX_PATTERN", ts,
              .cpKind (ctx.nsName ++ "::ComplexPattern::" ++ sf) ::
                childRefs.map MOperand.valueRef⟩
            .ok (mkResults s1.curDefNo ts, addSemantics ns s1)
      | .sdnode recName enumName =>
        let s0 := { s with
          hasIntrinsic := s.hasIntrinsic || intrInfo,
          hasComplexPattern := s.hasComplexPattern || cpInfo }
        match
          (match eqLookup ctx.equiv recName with
           | some (eqEnum, eqNumResults) =>
             if eqNumResults < ts.length then .ok (eqEnum, ts.take eqNumResults)
             else .error "assert failed: equivalence must reduce the result count"
           | none => .ok (enumName, ts) : Except String (String × List VT)) with
        | .error e => .error e
        | .ok (opc0, tsEff) =>
          let pr :=
            match preds.getLast? with
            | some p =>
              ("DCINS::PREDICATE",
               [MOperand.predName ("TargetOpcode::Predicate::" ++ p)],
               { s0 with encounteredPreds := insertPred p s0.encounteredPreds })
            | none => (opc0, [], s0)
          match flattenChildren fuel ctx children pr.2.2 with
          | .error e => .error e
          | .ok (childRefs, s1) =>
            let ns : LSNode := ⟨pr.1, tsEff,
              pr.2.1 ++ childRefs.map MOperand.valueRef⟩
            .ok (mkResults s1.curDefNo tsEff, addSemantics ns s1)
      | _ => .error "Unable to handle operator."

/-- The child loop shared by both `flattenSDNode` paths: flatten each child
and keep only the front result (`ChildRes.front().DefNo`). -/
def flattenChildren (fuel : Nat) (ctx : InstCtx) (children : List TPN) (s : LinState) :
    Except String (List Nat × LinState) :=
  match fuel with
  | 0 => .error "out of fuel"
  | fuel + 1 =>
    match children with
    | [] => .ok ([], s)
    | c :: rest =>
      match flattenSubtree fuel ctx c s with
      | .error e => .error e
      | .ok (rs, s1) =>
        match rs with
        | [] => .error "Subtree did not define anything?"
        | r :: _ =>
          match flattenChildren fuel ctx rest s1 with
          | .error e => .error e
          | .ok (ns, s2) => .ok (r.defNo :: ns, s2)

end

instance : Inhabited LSResult := ⟨⟨0, VT.isVoid⟩⟩

/-- One iteration of the target loop of `LinearSemantics::flattenSet`: for
an index `i` at or past the child result count, the target must be an
explicit register and is recorded as an implicit def without consuming a
result; otherwise a `PUT_RC` / `PUT_REG` write is emitted consuming
`ChildResults[i]`. -/
def flattenSetTarget1 (ctx : InstCtx) (setTypes : List VT) (c : TPN)
    (i : Nat) (childResults : List LSResult) (s : LinState) :
    Except String LinState :=
  match c with
  | .leaf cname _ (.defLeaf opRec) =>
    if i < childResults.length then
      match unwrapRegOperand opRec with
      | .registerClass _ =>
        match getNamedOperand ctx cname with
        | some oi =>
          .ok (addSemantics ⟨"DCINS::PUT_RC", setTypes,
            [.slotIdx oi.mioperandNo,
             .valueRef (childResults.getD i default).defNo]⟩ s)
        | none => .error "assert failed: set output operand not found in instruction?"
      | .register rn =>
        .ok (addSemantics ⟨"DCINS::PUT_REG", setTypes,
          [.regName (ctx.nsName ++ "::" ++ rn),
           .valueRef (childResults.getD i default).defNo]⟩
          { s with explicitDefs := s.explicitDefs ++ [.register rn] })
      | _ => .error "SET operator should only set registers!"
    else
      match opRec with
      | .register rn =>
        .ok { s with implicitDefs := s.implicitDefs ++ [.register rn] }
      | _ => .error "assert failed: Dropped implicit-def was not an explicit register set?"
  | _ => .error "cast<DefInit> failed: set target is not a def leaf"

/-- The target loop of `LinearSemantics::flattenSet`. -/
def flattenSetTargets (ctx : InstCtx) (setTypes : List VT) (targets : List TPN)
    (i : Nat) (childResults : List LSResult) (s : LinState) :
    Except String LinState :=
  match targets with
  | [] => .ok s
  | c :: rest =>
    match flattenSetTarget1 ctx setTypes c i childResults s with
    | .error e => .error e
    | .ok s1 => flattenSetTargets ctx setTypes rest (i + 1) childResults s1

/-- `LinearSemantics::flattenSet`: flatten the value child (the last one),
then walk the assignment targets. -/
def flattenSet (fuel : Nat) (ctx : InstCtx) (t : TPN) (s : LinState) :
    Except String LinState :=
  match t with
  | .node _ ts _ _ _ _ children =>
    match children.getLast? with
    | none => .error "set node without children"
    | some lastChild =>
      let numDefs := children.length - 1
      if numDefs ≤ lastChild.numTypes then
        match flattenSubtree fuel ctx lastChild s with
        | .error e => .error e
        | .ok (childResults, s1) =>
          flattenSetTargets ctx ts (children.take numDefs) 0 childResults s1
      else .error "assert failed: Invalid set: last child needs to define all the others."
  | .leaf _ _ _ => .error "set is not a node"

/-- `LinearSemantics::flatten`: top-level dispatch on the operator name —
`implicit` nodes are skipped, `set` nodes go to `flattenSet`, and any other
operator is flattened and must produce no results. -/
def flatten (fuel : Nat) (ctx : InstCtx) (t : TPN) (s : LinState) :
    Except String LinState :=
  match t with
  | .leaf _ _ _ => .error "top-level leaf has no operator"
  | .node _ _ op _ _ _ _ =>
    match op with
    | .implicitOp => .ok s
    | .setOp => flattenSet fuel ctx t s
    | _ =>
      match flattenSDNode fuel ctx t s with
      | .error e => .error e
      | .ok (r, s1) =>
        if r.isEmpty then .ok s1
        else .error "assert failed: Top-level SDNodes cannot produce results!"

def rmem (r : TGRecord) : List TGRecord → Bool
  | [] => false
  | x :: rest => if x = r then true else rmem r rest

/-- `LinearSemantics::computeImplicitDefs`: union the instruction's declared
implicit defs with those discovered during `set` processing, then drop any
register already explicitly defined and drop duplicates, preserving order. -/
def computeImplicitDefs (ctx : InstCtx) (s : LinState) : LinState :=
  let allImplicit := ctx.implicitDefs ++ s.implicitDefs
  let finalDefs := allImplicit.foldl
    (fun acc r => if rmem r s.explicitDefs || rmem r acc then acc else acc ++ [r]) []
  { s with implicitDefs := finalDefs }

def flattenTrees (fuel : Nat) (ctx : InstCtx) (trees : List TPN) (s : LinState) :
    Except String LinState :=
  match trees with
  | [] => .ok s
  | t :: rest =>
    match flatten fuel ctx t s with
    | .error e => .error e
    | .ok s1 => flattenTrees fuel ctx rest s1

/-- The per-instruction result kept by the collector (`InstSemantics`). -/
structure InstSema where
  semantics : List LSNode
  explicitDefs : List TGRecord
  implicitDefs : List TGRecord
  lastDefSemaIdx : Option Nat
  lastDefNo : Option Nat
  hasIntrinsic : Bool
  hasComplexPattern : Bool
deriving DecidableEq, Repr

instance : Inhabited InstSema := ⟨⟨[], [], [], none, none, false, false⟩⟩

/-- `SemanticsEmitter::parseInstSemantics`: linearize every tree of the
pattern with a fresh per-instruction state (the pool and predicate set are
process-wide), compute the final implicit defs, and apply the rejection
policy — `some` is an accepted program, `none` a silently dropped
instruction, `error` a fatal input-contract violation. -/
def parseInstSemantics (fuel : Nat) (ctx : InstCtx) (trees : List TPN)
    (pool : PoolState) (preds : List String) :
    Except String (Option InstSema × PoolState × List String) :=
  match flattenTrees fuel ctx trees (initLin pool preds) with
  | .error e => .error e
  | .ok s0 =>
    let s := computeImplicitDefs ctx s0
    if s.hasIntrinsic || s.hasComplexPattern then .ok (none, s.pool, s.encounteredPreds)
    else if 1 < s.implicitDefs.length then .ok (none, s.pool, s.encounteredPreds)
    else if ¬ s.implicitDefs.isEmpty ∧ s.lastDefNo = none then
      .ok (none, s.pool, s.encounteredPreds)
    else
      .ok (some ⟨s.semantics, s.explicitDefs, s.implicitDefs, s.lastDefSemaIdx,
                s.lastDefNo, s.hasIntrinsic, s.hasComplexPattern⟩,
           s.pool, s.encounteredPreds)

/-- Modelled from the claim wording of C10, for comparison with the code:
in the remainder after stripping the select prefix, the first lower-than
bracket is replaced by an underscore and the closing bracket and everything
after it is dropped. -/
def claimSanitizeRest (sf : List Char) : List Char :=
  (replaceLt sf).takeWhile (fun c => c != '>')

/-! ## Concrete scenario inputs -/

/-- An empty instruction context. -/
def ctx0 : InstCtx := ⟨"X", [], [], []⟩

/-- A node whose result-type list has a void entry before a non-void one. -/
def treeVoidFirst : TPN :=
  .node "" [VT.isVoid, VT.i32] (.sdnode "n" "ISD::N") [] false false
    [.leaf "" [VT.i64] (.intLeaf 5)]

/-- A void-typed top-level node consuming `treeVoidFirst`. -/
def treeVoidTop : TPN :=
  .node "" [VT.isVoid] (.sdnode "m" "ISD::M") [] false false [treeVoidFirst]

/-- A complex-pattern matcher node whose child carries a complex-pattern
annotation on an ordinary SDNode operator. -/
def treeCPAnnot : TPN :=
  .node "" [VT.i32] (.complexPattern "selectFoo") [] false false
    [.node "" [VT.i32] (.sdnode "n" "ISD::N") [] false true []]

/-- A bare integer-constant leaf. -/
def treeConst5 : TPN := .leaf "" [VT.i64] (.intLeaf 5)

/-- An operation using the literal constant 5 twice. -/
def treeTwoFives : TPN :=
  .node "" [VT.i32] (.sdnode "add" "ISD::ADD") [] false false
    [.leaf "" [VT.i32] (.intLeaf 5), .leaf "" [VT.i32] (.intLeaf 5)]

/-- The operand metadata of a three-register-operand instruction
`dst = add a, b`. -/
def ctxAdd : InstCtx :=
  ⟨"X",
   [⟨"a", .registerClass "GPR", "OPERAND_REGISTER", 1⟩,
    ⟨"b", .registerClass "GPR", "OPERAND_REGISTER", 2⟩,
    ⟨"dst", .registerClass "GPR", "OPERAND_REGISTER", 0⟩], [], []⟩

/-- The pattern `(set GPR:$dst, (add GPR:$a, GPR:$b))`. -/
def treeAdd : TPN :=
  .node "" [] .setOp [] false false
    [.leaf "dst" [VT.i32] (.defLeaf (.registerClass "GPR")),
     .node "" [VT.i32] (.sdnode "add" "ISD::ADD") [] false false
       [.leaf "a" [VT.i32] (.defLeaf (.registerClass "GPR")),
        .leaf "b" [VT.i32] (.defLeaf (.registerClass "GPR"))]]

/-- The program the collector accepts for `treeAdd`. -/
def semaAdd : InstSema :=
  match parseInstSemantics 20 ctxAdd [treeAdd] initPool [] with
  | .ok (some sm, _, _) => sm
  | _ => default

/-- The `(add GPR:$a, GPR:$b)` subtree of `treeAdd`. -/
def treeAddNode : TPN :=
  .node "" [VT.i32] (.sdnode "add" "ISD::ADD") [] false false
    [.leaf "a" [VT.i32] (.defLeaf (.registerClass "GPR")),
     .leaf "b" [VT.i32] (.defLeaf (.registerClass "GPR"))]

/-- The results of flattening `treeAddNode` from a fresh state. -/
def addRunResults : List LSResult :=
  match flattenSDNode 10 ctxAdd treeAddNode (initLin initPool []) with
  | .ok (rs, _) => rs
  | .error _ => []

/-- The state after flattening `treeAddNode` from a fresh state. -/
def addRunState : LinState :=
  match flattenSDNode 10 ctxAdd treeAddNode (initLin initPool []) with
  | .ok (_, s) => s
  | .error _ => initLin initPool []

/-- A custom-backed operand (neither a register class nor an immediate). -/
def oiCustom : OperandInfo := ⟨"imm", .operand "CustomImm", "OPERAND_CUSTOM", 1⟩

/-- A use site of the operand named `imm`, with a single non-void type. -/
def tCustom : TPN := .leaf "imm" [VT.i32] (.intLeaf 0)

/-- A complex-pattern matcher node carrying an intrinsic annotation, with no
children. -/
def treeCPIntr : TPN :=
  .node "" [VT.i32] (.complexPattern "selectFoo") [] true false []

/-- The results of flattening `treeCPIntr` from a fresh state. -/
def cpRunResults : List LSResult :=
  match flattenSDNode 10 ctx0 treeCPIntr (initLin initPool []) with
  | .ok (rs, _) => rs
  | .error _ => []

/-- The state after flattening `treeCPIntr` from a fresh state. -/
def cpRunState : LinState :=
  match flattenSDNode 10 ctx0 treeCPIntr (initLin initPool []) with
  | .ok (_, s) => s
  | .error _ => initLin initPool []

/-- Two explicit-register set targets. -/
def targetsW : List TPN :=
  [.leaf "" [] (.defLeaf (.register "EAX")),
   .leaf "" [] (.defLeaf (.register "EFLAGS"))]

/-- A single child result for the two targets above. -/
def rsW : List LSResult := [⟨0, VT.i32⟩]

/-- The state after the target loop on `targetsW` with the single result. -/
def setRunState : LinState :=
  match flattenSetTargets ctx0 [] targetsW 0 rsW (initLin initPool []) with
  | .ok s => s
  | .error _ => initLin initPool []

/-- The result of reading the constant leaf `5` from a fresh state. -/
def const5Run : LSResult × LinState :=
  match flattenLeaf ctx0 treeConst5 (initLin initPool []) with
  | .ok p => p
  | .error _ => (default, initLin initPool [])

/-! ## Invariant predicates over programs and states -/

/-- Number of value numbers an operation's results consume. -/
def opDefs (op : LSNode) : Nat := countNonVoid op.types

/-- Total number of value numbers consumed by a program. -/
def totalDefs (prog : List LSNode) : Nat := (prog.map opDefs).sum

/-- The first value number owned by the operation at position `j`. -/
def defStart (prog : List LSNode) (j : Nat) : Nat := totalDefs (prog.take j)

/-- Every value-number operand of `op` is below `bound`. -/
def refsBelowB (op : LSNode) (bound : Nat) : Bool :=
  op.operands.all (fun o =>
    match o with
    | .valueRef n => decide (n < bound)
    | _ => true)

/-- Every value-number operand of every operation references a value number
produced by a strictly earlier operation (`acc` counts the defs before the
current suffix). -/
def progRefsOKAux : List LSNode → Nat → Bool
  | [], _ => true
  | op :: rest, acc => refsBelowB op acc && progRefsOKAux rest (acc + opDefs op)

def progRefsOKB (prog : List LSNode) : Bool := progRefsOKAux prog 0

/-- If a last defining operation is recorded, some operation of the program
really does produce a result. -/
def producerOKb (s : LinState) : Bool :=
  match s.lastDefNo with
  | none => true
  | some _ => s.semantics.any (fun op => decide (opDefs op ≠ 0))

def memoOKb (s : LinState) : Bool :=
  s.operandByName.all (fun p => decide (p.2 < s.curDefNo))

def StateInvB (s : LinState) : Bool :=
  decide (s.curDefNo = totalDefs s.semantics) && progRefsOKAux s.semantics 0 &&
    memoOKb s && producerOKb s

/-- Every void entry of a result-type list comes after all non-void ones. -/
def voidsLastB : List VT → Bool
  | [] => true
  | VT.isVoid :: rest =>
      rest.all (fun ty => match ty with | VT.isVoid => true | _ => false)
  | _ :: rest => voidsLastB rest

def isNonVoidB : VT → Bool
  | .isVoid => false
  | _ => true

def headNonVoid : List VT → Bool
  | [] => false
  | ty :: _ => match ty with | VT.isVoid => false | _ => true

mutual

/-- Well-typedness of a subtree for the value-numbering invariants: a node
routed to an operand or leaf read has a non-void (single) type, and a
composite node's result types keep voids last. -/
def tpnGoodB (ctx : InstCtx) : TPN → Bool
  | .leaf _ ts _ => headNonVoid ts
  | .node nm ts _ _ _ _ children =>
    if (getNamedOperand ctx nm).isSome then headNonVoid ts
    else voidsLastB ts && tpnGoodList ctx children

def tpnGoodList (ctx : InstCtx) : List TPN → Bool
  | [] => true
  | t :: ts => tpnGoodB ctx t && tpnGoodList ctx ts

end

/-- Well-typedness of a top-level tree (dispatched to `flattenSDNode` or
`flattenSet` without the named-operand check). -/
def sdGoodB (ctx : InstCtx) : TPN → Bool
  | .leaf _ _ _ => false
  | .node _ ts _ _ _ _ children => voidsLastB ts && tpnGoodList ctx children

mutual

/-- No node with an ordinary SDNode operator in the tree carries a
complex-pattern annotation (so nothing re-raises `HasComplexPattern`). -/
def noCPRaiseB : TPN → Bool
  | .leaf _ _ _ => true
  | .node _ _ op _ _ cp children =>
    (match op with | .sdnode _ _ => !cp | _ => true) && noCPRaiseList children

def noCPRaiseList : List TPN → Bool
  | [] => true
  | t :: ts => noCPRaiseB t && noCPRaiseList ts

end

/-- State evolution facts that hold along every successful flattening step:
the program only grows, the def counter only grows, memo entries persist,
the producer bookkeeping stays consistent, the counter tracks the total def
count, and `HasIntrinsic` is never cleared. -/
def LightConc (s s' : LinState) : Prop :=
  (∃ tail, s'.semantics = s.semantics ++ tail) ∧
  s.curDefNo ≤ s'.curDefNo ∧
  (∀ nm k, obLookup s.operandByName nm = some k →
    obLookup s'.operandByName nm = some k) ∧
  (producerOKb s = true → producerOKb s' = true) ∧
  (s.curDefNo = totalDefs s.semantics → s'.curDefNo = totalDefs s'.semantics) ∧
  (s.hasIntrinsic = true → s'.hasIntrinsic = true)

/-! ## Basic lemmas about `addSemantics` and the program measures -/

theorem totalDefs_append (a b : List LSNode) :
    totalDefs (a ++ b) = totalDefs a + totalDefs b := by
  simp [totalDefs]

theorem totalDefs_single (ns : LSNode) : totalDefs [ns] = opDefs ns := by
  simp [totalDefs]

theorem progRefsOKAux_append (a b : List LSNode) (n : Nat) :
    progRefsOKAux (a ++ b) n =
      (progRefsOKAux a n && progRefsOKAux b (n + totalDefs a)) := by
  induction a generalizing n with
  | nil => simp [progRefsOKAux, totalDefs]
  | cons op rest ih =>
    simp [progRefsOKAux, ih, totalDefs, Bool.and_assoc, Nat.add_assoc,
      Nat.add_comm, Nat.add_left_comm]

theorem refsBelowB_mono (op : LSNode) (n m : Nat) (hnm : n ≤ m)
    (h : refsBelowB op n = true) : refsBelowB op m = true := by
  simp only [refsBelowB, List.all_eq_true] at h ⊢
  intro o ho
  cases o with
  | valueRef k =>
    have := h _ ho
    simp only [decide_eq_true_eq] at this ⊢
    omega
  | slotIdx k => rfl
  | constIdx k => rfl
  | regName s => rfl
  | opTypeName s => rfl
  | cpKind s => rfl
  | predName s => rfl

theorem addSemantics_semantics (ns : LSNode) (s : LinState) :
    (addSemantics ns s).semantics = s.semantics ++ [ns] := by
  unfold addSemantics
  dsimp only
  split <;> rfl

theorem addSemantics_curDefNo (ns : LSNode) (s : LinState) :
    (addSemantics ns s).curDefNo = s.curDefNo + countNonVoid ns.types := by
  unfold addSemantics
  dsimp only
  split <;> rfl

theorem addSemantics_operandByName (ns : LSNode) (s : LinState) :
    (addSemantics ns s).operandByName = s.operandByName := by
  unfold addSemantics
  dsimp only
  split <;> rfl

theorem addSemantics_pool (ns : LSNode) (s : LinState) :
    (addSemantics ns s).pool = s.pool := by
  unfold addSemantics
  dsimp only
  split <;> rfl

theorem addSemantics_explicitDefs (ns : LSNode) (s : LinState) :
    (addSemantics ns s).explicitDefs = s.explicitDefs := by
  unfold addSemantics
  dsimp only
  split <;> rfl

theorem addSemantics_implicitDefs (ns : LSNode) (s : LinState) :
    (addSemantics ns s).implicitDefs = s.implicitDefs := by
  unfold addSemantics
  dsimp only
  split <;> rfl

theorem addSemantics_hasComplexPattern (ns : LSNode) (s : LinState) :
    (addSemantics ns s).hasComplexPattern = s.hasComplexPattern := by
  unfold addSemantics
  dsimp only
  split <;> rfl

theorem addSemantics_hasIntrinsic (ns : LSNode) (s : LinState) :
    (addSemantics ns s).hasIntrinsic = (s.hasIntrinsic || hasUntyped ns.types) := by
  unfold addSemantics
  dsimp only
  split <;> rfl

theorem addSemantics_encounteredPreds (ns : LSNode) (s : LinState) :
    (addSemantics ns s).encounteredPreds = s.encounteredPreds := by
  unfold addSemantics
  dsimp only
  split <;> rfl

theorem addSemantics_lastDefNo (ns : LSNode) (s : LinState) :
    (addSemantics ns s).lastDefNo =
      (if countNonVoid ns.types = 0 then s.lastDefNo else some s.curDefNo) := by
  unfold addSemantics
  dsimp only
  split
  case isTrue h =>
    have hnz : ¬ countNonVoid ns.types = 0 := by omega
    simp [hnz]
  case isFalse h =>
    have hz : countNonVoid ns.types = 0 := by omega
    simp [hz]

theorem producerOKb_eq (s : LinState) :
    producerOKb s =
      (s.lastDefNo.isNone || s.semantics.any (fun op => decide (opDefs op ≠ 0))) := by
  unfold producerOKb
  cases s.lastDefNo <;> simp

theorem producerOK_addSemantics (ns : LSNode) (s : LinState)
    (h : producerOKb s = true) : producerOKb (addSemantics ns s) = true := by
  rw [producerOKb_eq] at h ⊢
  rw [addSemantics_lastDefNo, addSemantics_semantics]
  simp only [Bool.or_eq_true] at h
  by_cases hc : countNonVoid ns.types = 0
  · rw [if_pos hc]
    simp only [Bool.or_eq_true, List.any_append]
    rcases h with h1 | h2
    · exact Or.inl h1
    · refine Or.inr ?_
      simp only [List.any_eq_true, decide_eq_true_eq] at h2 ⊢
      rcases h2 with ⟨x, hx, hxd⟩
      exact Or.inl ⟨x, hx, hxd⟩
  · rw [if_neg hc]
    simp only [Bool.or_eq_true, List.any_append, List.any_cons, List.any_nil]
    right
    right
    simp [opDefs]
    omega

theorem memoOK_mono (s : LinState) (m : Nat) (hnm : s.curDefNo ≤ m)
    (h : memoOKb s = true) :
    (s.operandByName.all (fun p => decide (p.2 < m))) = true := by
  simp only [memoOKb, List.all_eq_true] at h ⊢
  intro p hp
  have := h p hp
  simp only [decide_eq_true_eq] at this ⊢
  omega

theorem StateInv_addSemantics (ns : LSNode) (s : LinState)
    (hs : StateInvB s = true) (hr : refsBelowB ns s.curDefNo = true) :
    StateInvB (addSemantics ns s) = true := by
  simp only [StateInvB, Bool.and_eq_true, decide_eq_true_eq] at hs
  obtain ⟨⟨⟨h1, h2⟩, h3⟩, h4⟩ := hs
  simp only [StateInvB, Bool.and_eq_true, decide_eq_true_eq]
  refine ⟨⟨⟨?_, ?_⟩, ?_⟩, ?_⟩
  · rw [addSemantics_curDefNo, addSemantics_semantics, totalDefs_append,
      totalDefs_single, h1]
    rfl
  · rw [addSemantics_semantics, progRefsOKAux_append]
    simp only [progRefsOKAux, Bool.and_eq_true, Bool.and_true]
    refine ⟨h2, ?_⟩
    exact refsBelowB_mono ns s.curDefNo (0 + totalDefs s.semantics) (by omega) hr
  · unfold memoOKb
    rw [addSemantics_operandByName, addSemantics_curDefNo]
    exact memoOK_mono s _ (by omega) h3
  · exact producerOK_addSemantics ns s h4

/-! ## Light state-evolution facts (no typing hypotheses) -/

theorem obLookup_append_of_some (l l2 : List (String × Nat)) (nm : String) (k : Nat)
    (h : obLookup l nm = some k) : obLookup (l ++ l2) nm = some k := by
  induction l with
  | nil => simp [obLookup] at h
  | cons p rest ih =>
    simp only [obLookup, List.cons_append] at h ⊢
    split at h
    · simpa [*] using h
    · simp only [*, if_neg]
      exact ih h

theorem LightConc.refl (s : LinState) : LightConc s s :=
  ⟨⟨[], by simp⟩, Nat.le_refl _, fun _ _ h => h, fun h => h, fun h => h, fun h => h⟩

theorem LightConc.trans {s1 s2 s3 : LinState}
    (h12 : LightConc s1 s2) (h23 : LightConc s2 s3) : LightConc s1 s3 := by
  obtain ⟨⟨t1, ht1⟩, hc1, hm1, hp1, hd1, hi1⟩ := h12
  obtain ⟨⟨t2, ht2⟩, hc2, hm2, hp2, hd2, hi2⟩ := h23
  exact ⟨⟨t1 ++ t2, by rw [ht2, ht1, List.append_assoc]⟩,
    Nat.le_trans hc1 hc2,
    fun nm k h => hm2 nm k (hm1 nm k h),
    fun h => hp2 (hp1 h),
    fun h => hd2 (hd1 h),
    fun h => hi2 (hi1 h)⟩

theorem LightConc.addSemantics (ns : LSNode) (s : LinState) :
    LightConc s (addSemantics ns s) := by
  refine ⟨⟨[ns], addSemantics_semantics ns s⟩, ?_, ?_, ?_, ?_, ?_⟩
  · rw [addSemantics_curDefNo]; omega
  · intro nm k h
    rw [addSemantics_operandByName]; exact h
  · exact producerOK_addSemantics ns s
  · intro h
    rw [addSemantics_curDefNo, addSemantics_semantics, totalDefs_append,
      totalDefs_single, h]
    rfl
  · intro h
    rw [addSemantics_hasIntrinsic, h]
    rfl

theorem flattenOperand_light (ctx : InstCtx) (t : TPN) (oi : OperandInfo)
    (s : LinState) (r : LSResult) (s' : LinState)
    (h : flattenOperand ctx t oi s = .ok (r, s')) :
    LightConc s s' ∧ s'.hasComplexPattern = s.hasComplexPattern := by
  unfold flattenOperand at h
  split at h
  case _ ty heq =>
    split at h
    case _ opName hrec =>
      split at h
      case isTrue himm =>
        cases h
        exact ⟨LightConc.addSemantics _ s, addSemantics_hasComplexPattern _ s⟩
      case isFalse himm =>
        split at h
        case _ n hlook =>
          cases h
          exact ⟨LightConc.refl s, rfl⟩
        case _ hlook =>
          cases h
          constructor
          · have hmid : LightConc s { s with
                operandByName := s.operandByName ++ [(oi.name, s.curDefNo)] } := by
              refine ⟨⟨[], by simp⟩, Nat.le_refl _, ?_, ?_, fun hp => hp, fun hp => hp⟩
              · intro nm k hk
                exact obLookup_append_of_some _ _ nm k hk
              · intro hp
                rw [producerOKb_eq] at hp ⊢
                exact hp
            exact LightConc.trans hmid (LightConc.addSemantics _ _)
          · rw [addSemantics_hasComplexPattern]
    case _ rc hrec =>
      cases h
      exact ⟨LightConc.addSemantics _ s, addSemantics_hasComplexPattern _ s⟩
    case _ => simp at h
  case _ => simp at h

theorem flattenLeaf_light (ctx : InstCtx) (t : TPN) (s : LinState)
    (r : LSResult) (s' : LinState)
    (h : flattenLeaf ctx t s = .ok (r, s')) :
    LightConc s s' ∧ s'.hasComplexPattern = s.hasComplexPattern := by
  unfold flattenLeaf at h
  split at h
  case _ nm ty lv =>
    split at h
    case _ v =>
      cases h
      constructor
      · have hmid : LightConc s { s with pool := (intern v s.pool).2 } := by
          refine ⟨⟨[], by simp⟩, Nat.le_refl _, fun _ _ hk => hk, ?_, fun hp => hp,
            fun hp => hp⟩
          intro hp
          rw [producerOKb_eq] at hp ⊢
          exact hp
        exact LightConc.trans hmid (LightConc.addSemantics _ _)
      · rw [addSemantics_hasComplexPattern]
    case _ rr =>
      split at h
      case _ rn =>
        cases h
        exact ⟨LightConc.addSemantics _ s, addSemantics_hasComplexPattern _ s⟩
      case _ => simp at h
  case _ => simp at h

theorem LightConc.flagsUpdate (s : LinState) (b1 b2 : Bool) (ep : List String) :
    LightConc s { s with hasIntrinsic := s.hasIntrinsic || b1,
                         hasComplexPattern := b2, encounteredPreds := ep } := by
  refine ⟨⟨[], by simp⟩, Nat.le_refl _, fun _ _ hk => hk, ?_, fun hp => hp, ?_⟩
  · intro hp
    rw [producerOKb_eq] at hp ⊢
    exact hp
  · intro hp
    simp [hp]

theorem flattenMutual_light : ∀ fuel : Nat,
    (∀ ctx t s rs s', flattenSubtree fuel ctx t s = .ok (rs, s') →
      LightConc s s' ∧
        (noCPRaiseB t = true → s.hasComplexPattern = false →
          s'.hasComplexPattern = false)) ∧
    (∀ ctx t s rs s', flattenSDNode fuel ctx t s = .ok (rs, s') →
      LightConc s s' ∧
        (noCPRaiseB t = true → s.hasComplexPattern = false →
          s'.hasComplexPattern = false)) ∧
    (∀ ctx ts s refs s', flattenChildren fuel ctx ts s = .ok (refs, s') →
      LightConc s s' ∧
        (noCPRaiseList ts = true → s.hasComplexPattern = false →
          s'.hasComplexPattern = false)) := by
  intro fuel
  induction fuel with
  | zero =>
    refine ⟨?_, ?_, ?_⟩ <;>
      · intro ctx t s rs s' h
        simp [flattenSubtree, flattenSDNode, flattenChildren] at h
  | succ fuel ih =>
    obtain ⟨ihSub, ihSD, ihCh⟩ := ih
    have hOperandCase : ∀ ctx (t : TPN) oi s rs s',
        (match flattenOperand ctx t oi s with
          | Except.error e => Except.error e
          | Except.ok (r, s1) => Except.ok ([r], s1)) = Except.ok (rs, s') →
        LightConc s s' ∧
          (noCPRaiseB t = true → s.hasComplexPattern = false →
            s'.hasComplexPattern = false) := by
      intro ctx t oi s rs s' h
      split at h
      case _ e => simp at h
      case _ =>
        rename_i r s1 heq
        cases h
        obtain ⟨hl, hf⟩ := flattenOperand_light ctx t oi s _ _ heq
        exact ⟨hl, fun _ hcp => by rw [hf]; exact hcp⟩
    refine ⟨?_, ?_, ?_⟩
    · -- flattenSubtree
      intro ctx t s rs s' h
      cases t with
      | leaf nm ts lv =>
        rw [flattenSubtree.eq_2] at h
        split at h
        case _ oi hno => exact hOperandCase ctx _ oi s rs s' h
        case _ hno =>
          split at h
          case _ e => simp at h
          case _ =>
            rename_i r s1 heq
            cases h
            obtain ⟨hl, hf⟩ := flattenLeaf_light ctx _ s _ _ heq
            exact ⟨hl, fun _ hcp => by rw [hf]; exact hcp⟩
      | node nm ts op preds intr cp children =>
        rw [flattenSubtree.eq_3] at h
        split at h
        case _ oi hno => exact hOperandCase ctx _ oi s rs s' h
        case _ hno => exact ihSD ctx _ s rs s' h
    · -- flattenSDNode
      intro ctx t s rs s' h
      cases t with
      | leaf nm ts lv =>
        rw [flattenSDNode.eq_2] at h
        simp at h
      | node nm ts op preds intr cp children =>
        cases op with
        | complexPattern sel =>
          rw [flattenSDNode.eq_3] at h
          split at h
          case _ e => simp at h
          case _ sf hsan =>
            split at h
            case _ e => simp at h
            case _ childRefs s1 hch =>
              cases h
              obtain ⟨hl1, hf1⟩ := ihCh ctx children _ childRefs s1 hch
              constructor
              · exact LightConc.trans
                  (LightConc.trans (LightConc.flagsUpdate s intr false _) hl1)
                  (LightConc.addSemantics _ _)
              · intro hnc hcp
                simp only [noCPRaiseB, Bool.and_eq_true] at hnc
                rw [addSemantics_hasComplexPattern]
                exact hf1 hnc.2 rfl
        | sdnode recName enumName =>
          rw [flattenSDNode.eq_4] at h
          split at h
          case _ e => simp at h
          case _ opc0 tsEff heq =>
            rcases hgl : preds.getLast? with _ | p <;> simp only [hgl] at h
            · -- no predicate
              split at h
              case _ e => simp at h
              case _ childRefs s1 hch =>
                cases h
                obtain ⟨hl1, hf1⟩ := ihCh ctx children _ childRefs s1 hch
                constructor
                · exact LightConc.trans
                    (LightConc.trans
                      (LightConc.flagsUpdate s intr (s.hasComplexPattern || cp) _) hl1)
                    (LightConc.addSemantics _ _)
                · intro hnc hcp
                  simp only [noCPRaiseB, Bool.and_eq_true] at hnc
                  rw [addSemantics_hasComplexPattern]
                  refine hf1 hnc.2 ?_
                  have hcpf : cp = false := by simpa using hnc.1
                  simp [hcp, hcpf]
            · -- predicate present
              split at h
              case _ e => simp at h
              case _ childRefs s1 hch =>
                cases h
                obtain ⟨hl1, hf1⟩ := ihCh ctx children _ childRefs s1 hch
                constructor
                · exact LightConc.trans
                    (LightConc.trans
                      (LightConc.flagsUpdate s intr (s.hasComplexPattern || cp) _) hl1)
                    (LightConc.addSemantics _ _)
                · intro hnc hcp
                  simp only [noCPRaiseB, Bool.and_eq_true] at hnc
                  rw [addSemantics_hasComplexPattern]
                  refine hf1 hnc.2 ?_
                  have hcpf : cp = false := by simpa using hnc.1
                  simp [hcp, hcpf]
        | setOp =>
          rw [flattenSDNode.eq_5] at h
          · simp at h
          · intro sel hh
            cases hh
          · intro a b hh
            cases hh
        | implicitOp =>
          rw [flattenSDNode.eq_5] at h
          · simp at h
          · intro sel hh
            cases hh
          · intro a b hh
            cases hh
    · -- flattenChildren
      intro ctx ts s refs s' h
      cases ts with
      | nil =>
        rw [flattenChildren.eq_2] at h
        cases h
        exact ⟨LightConc.refl s, fun _ hcp => hcp⟩
      | cons c rest =>
        rw [flattenChildren.eq_3] at h
        split at h
        case _ e => simp at h
        case _ =>
          rename_i rs1 s1 hsub
          split at h
          case _ => simp at h
          case _ r rtail =>
            split at h
            case _ e => simp at h
            case _ =>
              rename_i ns s2 hch
              cases h
              obtain ⟨hl1, hf1⟩ := ihSub ctx c s _ _ hsub
              obtain ⟨hl2, hf2⟩ := ihCh ctx rest _ _ _ hch
              constructor
              · exact LightConc.trans hl1 hl2
              · intro hnc hcp
                simp only [noCPRaiseList, Bool.and_eq_true] at hnc
                exact hf2 hnc.2 (hf1 hnc.1 hcp)

theorem LightConc.defsUpdate (s : LinState) (ed id : List TGRecord) :
    LightConc s { s with explicitDefs := ed, implicitDefs := id } := by
  refine ⟨⟨[], by simp⟩, Nat.le_refl _, fun _ _ hk => hk, ?_, fun hp => hp, fun hp => hp⟩
  intro hp
  rw [producerOKb_eq] at hp ⊢
  exact hp

theorem flattenSetTarget1_light (ctx : InstCtx) (setTs : List VT) (c : TPN)
    (i : Nat) (crs : List LSResult) (s s' : LinState)
    (h : flattenSetTarget1 ctx setTs c i crs s = .ok s') : LightConc s s' := by
  unfold flattenSetTarget1 at h
  split at h
  case _ cname cts opRec =>
    split at h
    case isTrue hlt =>
      split at h
      case _ rc hrec =>
        split at h
        case _ oi hoi =>
          cases h
          exact LightConc.addSemantics _ _
        case _ hoi => simp at h
      case _ rn hrec =>
        cases h
        exact LightConc.trans
          (LightConc.defsUpdate s (s.explicitDefs ++ [.register rn]) s.implicitDefs)
          (LightConc.addSemantics _ _)
      case _ hr1 hr2 => simp at h
    case isFalse hlt =>
      split at h
      case _ rn =>
        cases h
        exact LightConc.defsUpdate s s.explicitDefs (s.implicitDefs ++ [.register rn])
      case _ hr => simp at h
  case _ hshape => simp at h

theorem flattenSetTargets_light : ∀ (targets : List TPN) (ctx : InstCtx)
    (setTs : List VT) (i : Nat) (crs : List LSResult) (s s' : LinState),
    flattenSetTargets ctx setTs targets i crs s = .ok s' → LightConc s s' := by
  intro targets
  induction targets with
  | nil =>
    intro ctx setTs i crs s s' h
    unfold flattenSetTargets at h
    cases h
    exact LightConc.refl s
  | cons c rest ih =>
    intro ctx setTs i crs s s' h
    unfold flattenSetTargets at h
    split at h
    case _ e => simp at h
    case _ s1 h1 =>
      exact LightConc.trans (flattenSetTarget1_light ctx setTs c i crs s s1 h1)
        (ih _ _ _ _ _ _ h)

theorem flattenSet_light (fuel : Nat) (ctx : InstCtx) (t : TPN) (s s' : LinState)
    (h : flattenSet fuel ctx t s = .ok s') : LightConc s s' := by
  unfold flattenSet at h
  split at h
  case _ nm ts op preds intr cp children =>
    split at h
    case _ hlast => simp at h
    case _ lastChild hlast =>
      dsimp only at h
      by_cases hnd : children.length - 1 ≤ lastChild.numTypes
      · rw [if_pos hnd] at h
        split at h
        case _ e => simp at h
        case _ =>
          rename_i crs s1 hsub
          exact LightConc.trans ((flattenMutual_light fuel).1 ctx _ s _ _ hsub).1
            (flattenSetTargets_light _ ctx ts 0 crs s1 s' h)
      · rw [if_neg hnd] at h
        simp at h
  case _ => simp at h

theorem flatten_light (fuel : Nat) (ctx : InstCtx) (t : TPN) (s s' : LinState)
    (h : flatten fuel ctx t s = .ok s') : LightConc s s' := by
  unfold flatten at h
  split at h
  case _ => simp at h
  case _ nm ts op preds intr cp children =>
    split at h
    · cases h
      exact LightConc.refl s
    · exact flattenSet_light fuel ctx _ s s' h
    · split at h
      case _ e => simp at h
      case _ =>
        rename_i rs s1 hsd
        split at h
        case _ he =>
          cases h
          exact ((flattenMutual_light fuel).2.1 ctx _ s _ _ hsd).1
        case _ he => simp at h

theorem flattenTrees_light : ∀ (trees : List TPN) (fuel : Nat) (ctx : InstCtx)
    (s s' : LinState), flattenTrees fuel ctx trees s = .ok s' → LightConc s s' := by
  intro trees
  induction trees with
  | nil =>
    intro fuel ctx s s' h
    unfold flattenTrees at h
    cases h
    exact LightConc.refl s
  | cons t rest ih =>
    intro fuel ctx s s' h
    unfold flattenTrees at h
    split at h
    case _ e => simp at h
    case _ s1 h1 =>
      exact LightConc.trans (flatten_light fuel ctx t s s1 h1) (ih fuel ctx s1 s' h)

theorem computeImplicitDefs_semantics (ctx : InstCtx) (s : LinState) :
    (computeImplicitDefs ctx s).semantics = s.semantics := rfl

theorem computeImplicitDefs_lastDefNo (ctx : InstCtx) (s : LinState) :
    (computeImplicitDefs ctx s).lastDefNo = s.lastDefNo := rfl

theorem producerOK_computeImplicitDefs (ctx : InstCtx) (s : LinState)
    (h : producerOKb s = true) : producerOKb (computeImplicitDefs ctx s) = true := by
  rw [producerOKb_eq] at h ⊢
  rw [computeImplicitDefs_semantics, computeImplicitDefs_lastDefNo]
  exact h

theorem producerOK_init (pool : PoolState) (preds : List String) :
    producerOKb (initLin pool preds) = true := rfl

/-- C1: every instruction accepted into the final output aggregate has
`usesIntrinsic = false`, `usesComplexPattern = false`, at most one
implicit-def register, and, when its implicit-def set is non-empty, at
least one earlier MicroOp that produced a result.  A program violating any
of these conditions is returned as `none` by the collector (the instruction
gets no program), so nothing of it is emitted. -/
theorem parse_accept_invariants (fuel : Nat) (ctx : InstCtx) (trees : List TPN)
    (pool : PoolState) (preds : List String) (sema : InstSema)
    (pool' : PoolState) (preds' : List String)
    (h : parseInstSemantics fuel ctx trees pool preds = .ok (some sema, pool', preds')) :
    sema.hasIntrinsic = false ∧ sema.hasComplexPattern = false ∧
      sema.implicitDefs.length ≤ 1 ∧
      (sema.implicitDefs ≠ [] → ∃ op ∈ sema.semantics, opDefs op ≠ 0) := by
  unfold parseInstSemantics at h
  split at h
  case _ e => simp at h
  case _ s0 htr =>
    have hprod0 : producerOKb s0 = true :=
      (flattenTrees_light trees fuel ctx _ s0 htr).2.2.2.1 (producerOK_init pool preds)
    have hprod : producerOKb (computeImplicitDefs ctx s0) = true :=
      producerOK_computeImplicitDefs ctx s0 hprod0
    dsimp only at h
    split at h
    case _ hflag => simp at h
    case _ hflag =>
      split at h
      case _ hlen => simp at h
      case _ hlen =>
        split at h
        case _ himp => simp at h
        case _ himp =>
          cases h
          dsimp only
          simp only [Bool.or_eq_true, not_or, Bool.not_eq_true] at hflag
          refine ⟨hflag.1, hflag.2, by omega, ?_⟩
          intro hne
          have hempty : (computeImplicitDefs ctx s0).implicitDefs.isEmpty = false := by
            rcases hee : (computeImplicitDefs ctx s0).implicitDefs with _ | ⟨a, l⟩
            · exact absurd hee hne
            · rfl
          rcases hl : (computeImplicitDefs ctx s0).lastDefNo with _ | k
          · exact absurd ⟨by simp [hempty], hl⟩ himp
          · rw [producerOKb_eq, hl] at hprod
            simp only [Option.isNone_some, Bool.false_or, List.any_eq_true,
              decide_eq_true_eq] at hprod
            exact hprod

/-! ## Constant pool: interning behaviour -/

theorem cmLookup_cmSet_self (m : List (Nat × Nat)) (v i : Nat) :
    cmLookup (cmSet m v i) v = some i := by
  induction m with
  | nil => simp [cmSet, cmLookup]
  | cons p rest ih =>
    obtain ⟨k, j⟩ := p
    by_cases hk : k = v
    · simp [cmSet, cmLookup, hk]
    · simp [cmSet, cmLookup, hk, ih]

theorem cmLookup_cmSet_ne (m : List (Nat × Nat)) (v w i : Nat) (h : w ≠ v) :
    cmLookup (cmSet m v i) w = cmLookup m w := by
  induction m with
  | nil =>
    simp only [cmSet, cmLookup]
    rw [if_neg (fun hh => h hh.symm)]
  | cons p rest ih =>
    obtain ⟨k, j⟩ := p
    by_cases hk : k = v
    · subst hk
      simp only [cmSet, if_pos rfl, cmLookup]
      rw [if_neg (by omega), if_neg (by omega)]
    · simp only [cmSet, if_neg hk, cmLookup]
      by_cases hw : k = w
      · rw [if_pos hw, if_pos hw]
      · rw [if_neg hw, if_neg hw]
        exact ih

theorem cmSet_length_absent (m : List (Nat × Nat)) (v i : Nat)
    (h : cmLookup m v = none) : (cmSet m v i).length = m.length + 1 := by
  induction m with
  | nil => simp [cmSet]
  | cons p rest ih =>
    obtain ⟨k, j⟩ := p
    simp only [cmLookup] at h
    split at h
    · simp at h
    · simp only [cmSet, *, if_neg]
      simp [ih h]

theorem internTrace_fresh : ∀ (vals : List Nat) (s : PoolState),
    vals.Nodup → (∀ v ∈ vals, cmLookup s.constantIdx v = none) →
    s.curConstantIdx + vals.length ≤ 65535 →
    (internTrace vals s).1 = List.range' (s.curConstantIdx + 1) vals.length ∧
    (internTrace vals s).2.curConstantIdx = s.curConstantIdx + vals.length ∧
    (internTrace vals s).2.constantIdx.length = s.constantIdx.length + vals.length ∧
    (∀ w, w ∉ vals →
      cmLookup (internTrace vals s).2.constantIdx w = cmLookup s.constantIdx w) := by
  intro vals
  induction vals with
  | nil =>
    intro s _ _ _
    refine ⟨by simp [internTrace], by simp [internTrace], by simp [internTrace], ?_⟩
    intro w _
    simp [internTrace]
  | cons v rest ih =>
    intro s hnd hfresh hle
    have hv : cmLookup s.constantIdx v = none := hfresh v (by simp)
    have hstep : intern v s =
        ((s.curConstantIdx + 1),
         ⟨cmSet s.constantIdx v (s.curConstantIdx + 1), s.curConstantIdx + 1⟩) := by
      have hm : (s.curConstantIdx + 1) % 65536 = s.curConstantIdx + 1 := by
        apply Nat.mod_eq_of_lt
        simp only [List.length_cons] at hle
        omega
      unfold intern
      rw [hv]
      simp [hm]
    have hnd' : rest.Nodup := (List.nodup_cons.mp hnd).2
    have hvne : v ∉ rest := (List.nodup_cons.mp hnd).1
    set s1 : PoolState :=
      ⟨cmSet s.constantIdx v (s.curConstantIdx + 1), s.curConstantIdx + 1⟩ with hs1
    have hfresh' : ∀ w ∈ rest, cmLookup s1.constantIdx w = none := by
      intro w hw
      have hne : w ≠ v := fun hh => hvne (hh ▸ hw)
      rw [hs1]
      dsimp only
      rw [cmLookup_cmSet_ne _ _ _ _ hne]
      exact hfresh w (by simp [hw])
    have hle' : s1.curConstantIdx + rest.length ≤ 65535 := by
      rw [hs1]
      simp only [List.length_cons] at hle
      dsimp only
      omega
    obtain ⟨ih1, ih2, ih3, ih4⟩ := ih s1 hnd' hfresh' hle'
    have htr : internTrace (v :: rest) s =
        ((s.curConstantIdx + 1) :: (internTrace rest s1).1, (internTrace rest s1).2) := by
      have h0 : internTrace (v :: rest) s
          = ((intern v s).1 :: (internTrace rest (intern v s).2).1,
             (internTrace rest (intern v s).2).2) := rfl
      rw [h0, hstep]
    refine ⟨?_, ?_, ?_, ?_⟩
    · rw [htr]
      dsimp only
      rw [ih1]
      have : s1.curConstantIdx = s.curConstantIdx + 1 := rfl
      rw [this, List.length_cons, List.range'_succ]
    · rw [htr]
      dsimp only
      rw [ih2]
      have : s1.curConstantIdx = s.curConstantIdx + 1 := rfl
      rw [this, List.length_cons]
      omega
    · rw [htr]
      dsimp only
      rw [ih3, hs1]
      dsimp only
      rw [cmSet_length_absent _ _ _ hv, List.length_cons]
      omega
    · intro w hw
      have hwr : w ∉ rest := fun hh => hw (by simp [hh])
      have hwv : w ≠ v := fun hh => hw (by simp [hh])
      rw [htr]
      dsimp only
      rw [ih4 w hwr, hs1]
      dsimp only
      exact cmLookup_cmSet_ne _ _ _ _ hwv

theorem internTrace_append : ∀ (a b : List Nat) (s : PoolState),
    internTrace (a ++ b) s =
      ((internTrace a s).1 ++ (internTrace b (internTrace a s).2).1,
       (internTrace b (internTrace a s).2).2) := by
  intro a
  induction a with
  | nil => intro b s; rfl
  | cons v rest ih =>
    intro b s
    have h0 : internTrace ((v :: rest) ++ b) s
        = ((intern v s).1 :: (internTrace (rest ++ b) (intern v s).2).1,
           (internTrace (rest ++ b) (intern v s).2).2) := rfl
    have h1 : internTrace (v :: rest) s
        = ((intern v s).1 :: (internTrace rest (intern v s).2).1,
           (internTrace rest (intern v s).2).2) := rfl
    rw [h0, ih b (intern v s).2, h1]
    simp

theorem intern_twice (v : Nat) (s : PoolState) (h : s.curConstantIdx < 65535) :
    intern v (intern v s).2 = ((intern v s).1, (intern v s).2) := by
  by_cases h0 : (cmLookup s.constantIdx v).getD 0 = 0
  · have hm : (s.curConstantIdx + 1) % 65536 = s.curConstantIdx + 1 :=
      Nat.mod_eq_of_lt (by omega)
    have h1 : intern v s = (s.curConstantIdx + 1,
        ⟨cmSet s.constantIdx v (s.curConstantIdx + 1), s.curConstantIdx + 1⟩) := by
      unfold intern
      rw [if_pos h0, hm]
    rw [h1]
    unfold intern
    dsimp only
    rw [cmLookup_cmSet_self]
    simp only [Option.getD_some]
    rw [if_neg (by omega)]
  · have h1 : intern v s = ((cmLookup s.constantIdx v).getD 0, s) := by
      unfold intern
      rw [if_neg h0]
    rw [h1]
    unfold intern
    dsimp only
    rw [if_neg h0]

theorem pool_after_65535 :
    (internTrace (List.range 65535) initPool).1 = List.range' 1 65535 ∧
    (internTrace (List.range 65535) initPool).2.curConstantIdx = 65535 ∧
    (internTrace (List.range 65535) initPool).2.constantIdx.length = 65535 ∧
    (∀ w, w ∉ List.range 65535 →
      cmLookup (internTrace (List.range 65535) initPool).2.constantIdx w = none) := by
  obtain ⟨h1, h2, h3, h4⟩ := internTrace_fresh (List.range 65535) initPool
    (List.nodup_range 65535) (fun v _ => rfl)
    (by rw [List.length_range]; decide)
  refine ⟨by simpa using h1, by simpa using h2, by simpa using h3, ?_⟩
  intro w hw
  simpa using h4 w hw

theorem intern_eq_zero_case (s : PoolState) (v : Nat)
    (h : (cmLookup s.constantIdx v).getD 0 = 0) :
    intern v s = ((s.curConstantIdx + 1) % 65536,
      ⟨cmSet s.constantIdx v ((s.curConstantIdx + 1) % 65536),
       (s.curConstantIdx + 1) % 65536⟩) := by
  unfold intern
  rw [h]
  dsimp only
  rw [if_pos rfl]

theorem intern_eq_pos_case (s : PoolState) (v i : Nat)
    (h : cmLookup s.constantIdx v = some i) (hi : i ≠ 0) :
    intern v s = (i, s) := by
  unfold intern
  rw [h, Option.getD_some, if_neg hi]

theorem intern_at_65535 :
    intern 65535 (internTrace (List.range 65535) initPool).2 =
      (0, ⟨cmSet (internTrace (List.range 65535) initPool).2.constantIdx 65535 0, 0⟩) := by
  obtain ⟨_, h2, _, h4⟩ := pool_after_65535
  have hfresh : cmLookup (internTrace (List.range 65535) initPool).2.constantIdx 65535
      = none := h4 65535 (by simp [List.mem_range])
  rw [intern_eq_zero_case _ _ (by rw [hfresh]; rfl), h2]

/-- C3 (counterexample): once 65535 distinct constants have been interned
the 16-bit counter is exhausted.  Interning a fresh 65536th value returns
the wrapped index 0 (stored as 0, i.e. as "absent"), and interning the very
same value once more returns 1 — the same 64-bit value receives two
different indices across the run, refuting the claim that interning a value
any number of times anywhere across the whole run yields the same index. -/
theorem intern_wrap_counterexample :
    (intern 65535 (internTrace (List.range 65535) initPool).2).1 = 0 ∧
    (intern 65535 (intern 65535 (internTrace (List.range 65535) initPool).2).2).1 = 1 := by
  rw [intern_at_65535]
  refine ⟨rfl, ?_⟩
  rw [intern_eq_zero_case _ _ (by rw [cmLookup_cmSet_self]; rfl)]
  dsimp only

/-- C3 (amended): constant interning is idempotent and sequential as long
as the 16-bit index counter has not been exhausted: (1) with fewer than
65535 indices assigned, re-interning any value returns the same index and
leaves the pool unchanged; (2) interning N ≤ 65535 pairwise-distinct values
from a fresh pool returns exactly the indices 1, 2, ..., N in first-seen
order; and (3) a tree using the literal 5 twice emits two read-constant
MicroOps that carry the same pool index. -/
theorem intern_idempotent_sequential :
    (∀ v s, s.curConstantIdx < 65535 →
      intern v (intern v s).2 = ((intern v s).1, (intern v s).2)) ∧
    (∀ vals : List Nat, vals.Nodup → vals.length ≤ 65535 →
      (internTrace vals initPool).1 = List.range' 1 vals.length) ∧
    ((flattenSubtree 10 ctx0 treeTwoFives (initLin initPool [])).map
      (fun p => p.2.semantics.map LSNode.operands)
      = .ok [[MOperand.constIdx 0], [MOperand.constIdx 0],
             [MOperand.valueRef 0, MOperand.valueRef 1]]) := by
  refine ⟨intern_twice, ?_, by decide⟩
  intro vals hnd hlen
  obtain ⟨h1, _, _, _⟩ := internTrace_fresh vals initPool hnd (fun v _ => rfl)
    (by show 0 + vals.length ≤ 65535; omega)
  simpa using h1

/-- C4: the code performs no overflow check when interning.  Interning
65536 distinct constants wraps the `uint16_t` counter: the last value
receives wrapped index 0, the counter ends at 0 while the pool holds 65536
entries (so the emission-time assertion `CurConstantIdx ==
ConstantIdx.size()` is violated), the first value's index 1 is then
reassigned to the next distinct value interned, and the first interned
value had received that same index 1 — a duplicate index, with generation
continuing. -/
theorem intern_overflow_behavior :
    (internTrace (List.range 65536) initPool).1.getLast? = some 0 ∧
    (internTrace (List.range 65536) initPool).1.head? = some 1 ∧
    (internTrace (List.range 65536) initPool).2.curConstantIdx = 0 ∧
    (internTrace (List.range 65536) initPool).2.constantIdx.length = 65536 ∧
    (intern 99999999 (internTrace (List.range 65536) initPool).2).1 = 1 := by
  obtain ⟨h1, h2, h3, h4⟩ := pool_after_65535
  have hsplit : (65536 : Nat) = 65535 + 1 := rfl
  have hr : List.range 65536 = List.range 65535 ++ [65535] := by
    rw [hsplit]
    exact List.range_succ 65535
  have happ := internTrace_append (List.range 65535) [65535] initPool
  have hone : internTrace [65535] (internTrace (List.range 65535) initPool).2
      = ([0], ⟨cmSet (internTrace (List.range 65535) initPool).2.constantIdx 65535 0,
               0⟩) := by
    have h0 : internTrace [65535] (internTrace (List.range 65535) initPool).2
        = ((intern 65535 (internTrace (List.range 65535) initPool).2).1 ::
            (internTrace [] (intern 65535 (internTrace (List.range 65535) initPool).2).2).1,
           (internTrace [] (intern 65535 (internTrace (List.range 65535) initPool).2).2).2) := rfl
    rw [h0, intern_at_65535]
    rfl
  have htr : internTrace (List.range 65536) initPool
      = (List.range' 1 65535 ++ [0],
         ⟨cmSet (internTrace (List.range 65535) initPool).2.constantIdx 65535 0, 0⟩) := by
    rw [hr, happ, hone, h1]
  refine ⟨?_, ?_, ?_, ?_, ?_⟩
  · rw [htr]
    exact List.getLast?_concat _
  · rw [htr]
    dsimp only
    have : List.range' 1 65535 = 1 :: List.range' 2 65534 := by
      have h65 : (65535 : Nat) = 65534 + 1 := rfl
      rw [h65, List.range'_succ]
    rw [this]
    rfl
  · rw [htr]
  · rw [htr]
    dsimp only
    rw [cmSet_length_absent _ _ _ (h4 65535 (by simp [List.mem_range])), h3]
  · rw [htr]
    rw [intern_eq_zero_case]
    · rfl
    · dsimp only
      rw [cmLookup_cmSet_ne _ _ _ _ (by omega)]
      rw [h4 99999999 (by simp [List.mem_range])]
      rfl

/-! ## Selector-name sanitization -/

theorem mk_toList (cs : List Char) : (String.mk cs).toList = cs := rfl

theorem replaceLt_append_of_hasLt (a b : List Char) (h : hasLt a = true) :
    replaceLt (a ++ b) = replaceLt a ++ b := by
  induction a with
  | nil => simp [hasLt] at h
  | cons c rest ih =>
    by_cases hc : c = '<'
    · simp [replaceLt, hc]
    · simp only [hasLt] at h
      rw [if_neg hc] at h
      simp only [List.cons_append, replaceLt, if_neg hc]
      rw [List.append_eq, ih h]

theorem gt_not_mem_replaceLt (a : List Char) (h : '>' ∉ a) :
    '>' ∉ replaceLt a := by
  induction a with
  | nil => simp [replaceLt]
  | cons c rest ih =>
    simp only [List.mem_cons, not_or] at h
    by_cases hc : c = '<'
    · simp only [replaceLt, if_pos hc, List.mem_cons, not_or]
      exact ⟨by decide, h.2⟩
    · simp only [replaceLt, if_neg hc, List.mem_cons, not_or]
      exact ⟨h.1, ih h.2⟩

theorem takeWhile_append_gt (x : List Char) (ys : List Char) (h : '>' ∉ x) :
    (x ++ '>' :: ys).takeWhile (fun c => c != '>') = x := by
  induction x with
  | nil => simp [List.takeWhile]
  | cons c rest ih =>
    simp only [List.mem_cons, not_or] at h
    simp only [List.cons_append, List.takeWhile]
    have hb : (c != '>') = true := by
      simp only [bne_iff_ne, ne_eq]
      exact fun hh => h.1 hh.symm
    rw [hb]
    simp only [List.append_eq]
    rw [ih h.2]

theorem hasLt_append_left (a b : List Char) (h : hasLt a = true) :
    hasLt (a ++ b) = true := by
  induction a with
  | nil => simp [hasLt] at h
  | cons c rest ih =>
    simp only [hasLt] at h ⊢
    by_cases hc : c = '<'
    · rw [if_pos hc]
    · rw [if_neg hc] at h ⊢
      exact ih h

/-- C10 (counterexample): for the selector name `SelectFoo<i32>X` the code
strips the prefix, replaces the bracket and then drops only the final
character, yielding `Foo_i32>`; the claim's transform (drop the closing
bracket and everything after it) yields `Foo_i32`, which differs. -/
theorem sanitize_counterexample :
    sanitizeSelectFuncToEnumVal "SelectFoo<i32>X" = .ok "Foo_i32>" ∧
    String.mk (claimSanitizeRest (("SelectFoo<i32>X" : String).toList.drop 6))
      = "Foo_i32" ∧
    ("Foo_i32>" : String) ≠ "Foo_i32" := by
  refine ⟨by decide, by decide, by decide⟩

/-- C10 (amended): a selector name not starting with `select`/`Select` is a
fatal input-contract error; otherwise those six characters are dropped and,
if the remainder contains a lower-than bracket, that bracket is replaced by
an underscore and the *final character of the remainder* is dropped.  When
the bracketed suffix ends the name (the closing bracket is the last
character), this coincides with the claim's description of dropping the
closing bracket and everything after it. -/
theorem sanitize_select_behavior :
    (∀ cs : List Char, startsWithSelect cs = false →
      sanitizeSelectFuncToEnumVal (String.mk cs)
        = .error ("ComplexPattern func does not start with select: " ++ String.mk cs)) ∧
    (∀ cs : List Char, startsWithSelect cs = true → hasLt (cs.drop 6) = false →
      sanitizeSelectFuncToEnumVal (String.mk cs) = .ok (String.mk (cs.drop 6))) ∧
    (∀ cs : List Char, startsWithSelect cs = true → hasLt (cs.drop 6) = true →
      sanitizeSelectFuncToEnumVal (String.mk cs)
        = .ok (String.mk ((replaceLt (cs.drop 6)).dropLast))) ∧
    (∀ (cs a : List Char), startsWithSelect cs = true → cs.drop 6 = a ++ ['>'] →
      hasLt a = true → '>' ∉ a →
      sanitizeSelectFuncToEnumVal (String.mk cs)
        = .ok (String.mk (claimSanitizeRest (cs.drop 6)))) := by
  refine ⟨?_, ?_, ?_, ?_⟩
  · intro cs h
    unfold sanitizeSelectFuncToEnumVal
    dsimp only
    rw [mk_toList]
    rw [h]
    rfl
  · intro cs h hlt
    unfold sanitizeSelectFuncToEnumVal
    dsimp only
    rw [mk_toList]
    rw [h, if_pos rfl, hlt]
    rfl
  · intro cs h hlt
    unfold sanitizeSelectFuncToEnumVal
    dsimp only
    rw [mk_toList]
    rw [h, if_pos rfl, hlt]
    rfl
  · intro cs a h hdrop hlt hgt
    have hlt' : hasLt (cs.drop 6) = true := by
      rw [hdrop]
      exact hasLt_append_left a ['>'] hlt
    unfold sanitizeSelectFuncToEnumVal
    dsimp only
    rw [mk_toList]
    rw [h, if_pos rfl, hlt']
    have hcode : (replaceLt (cs.drop 6)).dropLast = replaceLt a := by
      rw [hdrop, replaceLt_append_of_hasLt a ['>'] hlt, List.dropLast_concat]
    have hclaim : claimSanitizeRest (cs.drop 6) = replaceLt a := by
      unfold claimSanitizeRest
      rw [hdrop, replaceLt_append_of_hasLt a ['>'] hlt]
      have : replaceLt a ++ ['>'] = replaceLt a ++ '>' :: [] := rfl
      rw [this, takeWhile_append_gt _ _ (gt_not_mem_replaceLt a hgt)]
    rw [hcode, hclaim]
    rfl

/-! ## Complex-pattern matcher nodes and capability flags -/

/-- C2 (counterexample): processing a complex-pattern matcher node whose
child subtree re-raises the complex-pattern annotation leaves
`usesComplexPattern = true` after the node is processed, because the branch
clears the flag *before* the children are flattened — refuting the claim
that the flag is false immediately after every such node. -/
theorem cp_flag_counterexample :
    (flattenSDNode 10 ctx0 treeCPAnnot (initLin initPool [])).map
      (fun p => p.2.hasComplexPattern) = .ok true := by decide

/-- C2 (amended): linearizing a complex-pattern matcher node sets
`usesIntrinsic` when the node carries an intrinsic annotation, and leaves
`usesComplexPattern = false` after the node (even if it was true before)
*provided* no node in the children's subtrees carries a complex-pattern
annotation readable by the ordinary-SDNode path; consequently an
instruction whose only complex-pattern uses are such matcher nodes is not
excluded for complex-pattern use. -/
theorem cp_node_flags (fuel : Nat) (ctx : InstCtx) (nm : String) (ts : List VT)
    (sel : String) (preds : List String) (intr cp : Bool) (children : List TPN)
    (s : LinState) (rs : List LSResult) (s' : LinState)
    (h : flattenSDNode fuel ctx
        (.node nm ts (.complexPattern sel) preds intr cp children) s = .ok (rs, s')) :
    (intr = true → s'.hasIntrinsic = true) ∧
    (noCPRaiseList children = true → s'.hasComplexPattern = false) := by
  cases fuel with
  | zero => simp [flattenSDNode] at h
  | succ fuel =>
    rw [flattenSDNode.eq_3] at h
    split at h
    case _ e => simp at h
    case _ sf hsan =>
      split at h
      case _ e => simp at h
      case _ =>
        rename_i childRefs s1 hch
        cases h
        obtain ⟨hl1, hf1⟩ := (flattenMutual_light fuel).2.2 ctx children _ _ _ hch
        constructor
        · intro hi
          rw [addSemantics_hasIntrinsic]
          have h1 : s1.hasIntrinsic = true := by
            apply hl1.2.2.2.2.2
            show (s.hasIntrinsic || intr) = true
            rw [hi]
            simp
          rw [h1]
          rfl
        · intro hnc
          rw [addSemantics_hasComplexPattern]
          exact hf1 hnc rfl

/-! ## Value numbering: recorded results versus the running counter -/

/-- C5 (counterexample): flattening a node whose result-type list is
`[isVoid, i32]` (a void entry before a non-void one) emits its operation at
program index 1; the running counter assigns that operation exactly the
value number 1 (its def range starts at 1 and it defines one value, the
program total being 2), but the recorded ValueNumber for its single
non-void result is 2 — the recorded number does not equal the number
actually assigned by the counter. -/
theorem valuenumber_mismatch_counterexample :
    (flattenSubtree 10 ctx0 treeVoidFirst (initLin initPool [])).map
      (fun p => (p.1.map LSResult.defNo, defStart p.2.semantics 1,
                 totalDefs p.2.semantics, p.2.curDefNo))
      = .ok ([2], 1, 2, 2) := by decide

/-- C6 (counterexample): an accepted instruction program in which a MicroOp
operand is a ValueNumber reference to the operation's own def range: the
void-before-non-void child records ValueNumber 2 for a result the counter
numbered 1, and the parent consumes the dangling reference 2, which is not
produced by any strictly earlier MicroOp. -/
theorem forward_reference_counterexample :
    (parseInstSemantics 10 ctx0 [treeVoidTop] initPool []).map
      (fun r => r.1.map (fun sm => progRefsOKB sm.semantics)) = .ok (some false) := by
  decide

/-! ## Constant reads -/

/-- C9 (counterexample): the first interned constant receives pool index 1,
but the emitted read-constant MicroOp carries operand 0 (`Idx - 1`), not
the 1-based index claimed. -/
theorem constant_operand_counterexample :
    (flattenLeaf ctx0 treeConst5 (initLin initPool [])).map
      (fun p => p.2.semantics.map LSNode.operands) = .ok [[MOperand.constIdx 0]] ∧
    (intern 5 initPool).1 = 1 := by
  constructor
  · decide
  · decide

/-- C9 (amended): every integer-constant leaf emits a *fresh* read-constant
MicroOp whose operand is `intern(value) - 1` — the zero-based position of
the 1-based pool index, with `uint16` index 0 underflowing to `2^64 - 1` —
and two reads of the same value (below the index ceiling) emit two separate
MicroOps carrying the *same* pool operand: constants are deduplicated at
the pool level, never at the op level. -/
theorem constant_read_operand :
    (∀ (ctx : InstCtx) (nm : String) (ty : VT) (v : Nat) (s : LinState)
       (r : LSResult) (s' : LinState),
      flattenLeaf ctx (.leaf nm [ty] (.intLeaf v)) s = .ok (r, s') →
      r = ⟨s.curDefNo, ty⟩ ∧
      s'.semantics = s.semantics ++
        [⟨"DCINS::GET_CONSTANT", [ty],
          [.constIdx (if (intern v s.pool).1 = 0 then 18446744073709551615
                      else (intern v s.pool).1 - 1)]⟩] ∧
      s'.pool = (intern v s.pool).2) ∧
    (∀ (ctx : InstCtx) (nm : String) (ty : VT) (v : Nat) (s : LinState)
       (r r' : LSResult) (s' s'' : LinState),
      s.pool.curConstantIdx < 65535 →
      flattenLeaf ctx (.leaf nm [ty] (.intLeaf v)) s = .ok (r, s') →
      flattenLeaf ctx (.leaf nm [ty] (.intLeaf v)) s' = .ok (r', s'') →
      ∃ op : LSNode, op.opcode = "DCINS::GET_CONSTANT" ∧
        s''.semantics = s.semantics ++ [op, op]) := by
  have hshape : ∀ (ctx : InstCtx) (nm : String) (ty : VT) (v : Nat) (s : LinState)
      (r : LSResult) (s' : LinState),
      flattenLeaf ctx (.leaf nm [ty] (.intLeaf v)) s = .ok (r, s') →
      r = ⟨s.curDefNo, ty⟩ ∧
      s'.semantics = s.semantics ++
        [⟨"DCINS::GET_CONSTANT", [ty],
          [.constIdx (if (intern v s.pool).1 = 0 then 18446744073709551615
                      else (intern v s.pool).1 - 1)]⟩] ∧
      s'.pool = (intern v s.pool).2 := by
    intro ctx nm ty v s r s' h
    unfold flattenLeaf at h
    cases h
    refine ⟨rfl, ?_, ?_⟩
    · rw [addSemantics_semantics]
    · rw [addSemantics_pool]
  refine ⟨hshape, ?_⟩
  intro ctx nm ty v s r r' s' s'' hcur h1 h2
  obtain ⟨hr1, hs1, hp1⟩ := hshape ctx nm ty v s r s' h1
  obtain ⟨hr2, hs2, hp2⟩ := hshape ctx nm ty v s' r' s'' h2
  have hsame : intern v s'.pool = ((intern v s.pool).1, (intern v s.pool).2) := by
    rw [hp1]
    exact intern_twice v s.pool hcur
  refine ⟨⟨"DCINS::GET_CONSTANT", [ty],
    [.constIdx (if (intern v s.pool).1 = 0 then 18446744073709551615
                else (intern v s.pool).1 - 1)]⟩, rfl, ?_⟩
  rw [hs2, hs1, hsame]
  simp

/-! ## The full value-numbering invariant -/

theorem refsBelowB_of_forall (op : LSNode) (b : Nat)
    (h : ∀ n, MOperand.valueRef n ∈ op.operands → n < b) :
    refsBelowB op b = true := by
  simp only [refsBelowB, List.all_eq_true]
  intro o ho
  cases o with
  | valueRef n => simpa using h n ho
  | slotIdx k => rfl
  | constIdx k => rfl
  | regName x => rfl
  | opTypeName x => rfl
  | cpKind x => rfl
  | predName x => rfl

theorem obLookup_some_lt (l : List (String × Nat)) (b : Nat)
    (hall : l.all (fun p => decide (p.2 < b)) = true) (nm : String) (n : Nat)
    (h : obLookup l nm = some n) : n < b := by
  induction l with
  | nil => simp [obLookup] at h
  | cons p rest ih =>
    simp only [List.all_cons, Bool.and_eq_true, decide_eq_true_eq] at hall
    simp only [obLookup] at h
    split at h
    · cases h
      exact hall.1
    · exact ih hall.2 h

theorem countNonVoid_single (ty : VT) (h : isNonVoidB ty = true) :
    countNonVoid [ty] = 1 := by
  cases ty <;> simp_all [countNonVoid, isNonVoidB]

theorem isVoid_filter_all (ts : List VT)
    (h : ts.all (fun ty => match ty with | VT.isVoid => true | _ => false) = true) :
    countNonVoid ts = 0 ∧ (∀ c i, mkResultsAux c i ts = []) := by
  induction ts with
  | nil => exact ⟨rfl, fun c i => rfl⟩
  | cons ty rest ih =>
    simp only [List.all_cons, Bool.and_eq_true] at h
    have hty : ty = VT.isVoid := by
      cases ty <;> simp_all
    subst hty
    obtain ⟨ih1, ih2⟩ := ih h.2
    constructor
    · simpa [countNonVoid] using ih1
    · intro c i
      simp only [mkResultsAux]
      exact ih2 c (i + 1)

theorem isNonVoidB_of_ne (ty : VT) (hv : ty ≠ VT.isVoid) : isNonVoidB ty = true := by
  cases ty
  case isVoid => exact absurd rfl hv
  all_goals rfl

theorem voidsLastB_cons_nonvoid (ty : VT) (rest : List VT)
    (h : isNonVoidB ty = true) :
    voidsLastB (ty :: rest) = voidsLastB rest := by
  cases ty <;> simp_all [voidsLastB, isNonVoidB]

theorem countNonVoid_cons_nonvoid (ty : VT) (rest : List VT)
    (h : isNonVoidB ty = true) :
    countNonVoid (ty :: rest) = countNonVoid rest + 1 := by
  cases ty <;> simp_all [countNonVoid, List.filter, isNonVoidB]

theorem countNonVoid_cons_void (rest : List VT) :
    countNonVoid (VT.isVoid :: rest) = countNonVoid rest := by
  simp [countNonVoid, List.filter]

theorem mkResultsAux_cons_nonvoid (ty : VT) (rest : List VT) (c i : Nat)
    (h : isNonVoidB ty = true) :
    mkResultsAux c i (ty :: rest) = ⟨c + i, ty⟩ :: mkResultsAux c (i + 1) rest := by
  cases ty <;> simp_all [mkResultsAux, isNonVoidB]

theorem mkResultsAux_range (ts : List VT) : ∀ (c i : Nat),
    voidsLastB ts = true →
    (mkResultsAux c i ts).map LSResult.defNo = List.range' (c + i) (countNonVoid ts) := by
  induction ts with
  | nil => intro c i _; rfl
  | cons ty rest ih =>
    intro c i h
    by_cases hv : ty = VT.isVoid
    · subst hv
      simp only [voidsLastB] at h
      obtain ⟨h0, haux⟩ := isVoid_filter_all rest h
      simp only [mkResultsAux, countNonVoid_cons_void]
      rw [haux c (i + 1), h0]
      rfl
    · have hnv := isNonVoidB_of_ne ty hv
      rw [mkResultsAux_cons_nonvoid ty rest c i hnv]
      rw [voidsLastB_cons_nonvoid ty rest hnv] at h
      simp only [List.map_cons]
      rw [ih c (i + 1) h, countNonVoid_cons_nonvoid ty rest hnv, List.range'_succ,
        Nat.add_assoc]

theorem mkResults_range (c : Nat) (ts : List VT) (h : voidsLastB ts = true) :
    (mkResults c ts).map LSResult.defNo = List.range' c (countNonVoid ts) := by
  have := mkResultsAux_range ts c 0 h
  simpa [mkResults] using this

theorem mkResults_bound (c : Nat) (ts : List VT) (h : voidsLastB ts = true) :
    ∀ r ∈ mkResults c ts, r.defNo < c + countNonVoid ts := by
  intro r hr
  have hmem : r.defNo ∈ (mkResults c ts).map LSResult.defNo := List.mem_map_of_mem _ hr
  rw [mkResults_range c ts h] at hmem
  exact (List.mem_range'_1.mp hmem).2

theorem voidsLastB_take (ts : List VT) : ∀ (k : Nat),
    voidsLastB ts = true → voidsLastB (ts.take k) = true := by
  induction ts with
  | nil => intro k _; simp [voidsLastB]
  | cons ty rest ih =>
    intro k h
    cases k with
    | zero => rfl
    | succ k =>
      rw [List.take_succ_cons]
      by_cases hv : ty = VT.isVoid
      · subst hv
        simp only [voidsLastB] at h ⊢
        simp only [List.all_eq_true] at h ⊢
        intro x hx
        exact h x (List.take_subset k rest hx)
      · have hnv := isNonVoidB_of_ne ty hv
        rw [voidsLastB_cons_nonvoid ty _ hnv] at h
        rw [voidsLastB_cons_nonvoid ty _ hnv]
        exact ih k h

theorem StateInvB_fields (s s' : LinState) (h1 : s'.semantics = s.semantics)
    (h2 : s'.curDefNo = s.curDefNo) (h3 : s'.operandByName = s.operandByName)
    (h4 : s'.lastDefNo = s.lastDefNo) : StateInvB s' = StateInvB s := by
  unfold StateInvB memoOKb producerOKb
  rw [h1, h2, h3, h4]

theorem headNonVoid_cons (ty : VT) (rest : List VT) :
    headNonVoid (ty :: rest) = isNonVoidB ty := by
  cases ty <;> rfl

theorem StateInvB_iff (s : LinState) : StateInvB s = true ↔
    (s.curDefNo = totalDefs s.semantics ∧ progRefsOKAux s.semantics 0 = true ∧
     memoOKb s = true ∧ producerOKb s = true) := by
  unfold StateInvB
  simp [Bool.and_eq_true, and_assoc]

theorem refsBelowB_no_refs (op : LSNode) (b : Nat)
    (h : ∀ n, MOperand.valueRef n ∈ op.operands → False) :
    refsBelowB op b = true :=
  refsBelowB_of_forall op b (fun n hn => absurd hn (fun hh => h n hh))

theorem flattenOperand_full (ctx : InstCtx) (t : TPN) (oi : OperandInfo)
    (s : LinState) (r : LSResult) (s' : LinState)
    (hs : StateInvB s = true) (hgood : headNonVoid t.types = true)
    (h : flattenOperand ctx t oi s = .ok (r, s')) :
    StateInvB s' = true ∧ r.defNo < s'.curDefNo := by
  unfold flattenOperand at h
  split at h
  case _ ty heq =>
    rw [heq, headNonVoid_cons] at hgood
    have hone : countNonVoid [ty] = 1 := countNonVoid_single ty hgood
    split at h
    case _ opName hrec =>
      split at h
      case isTrue himm =>
        cases h
        constructor
        · apply StateInv_addSemantics _ _ hs
          exact refsBelowB_no_refs _ _ (by intro n hn; simp at hn)
        · rw [addSemantics_curDefNo]
          dsimp only
          rw [heq, hone]
          omega
      case isFalse himm =>
        split at h
        case _ n hlook =>
          cases h
          refine ⟨hs, ?_⟩
          have hmemo : memoOKb s = true := ((StateInvB_iff s).mp hs).2.2.1
          exact obLookup_some_lt _ _ hmemo _ _ hlook
        case _ hlook =>
          cases h
          have hsplit := (StateInvB_iff s).mp hs
          constructor
          · rw [StateInvB_iff]
            refine ⟨?_, ?_, ?_, ?_⟩
            · rw [addSemantics_curDefNo, addSemantics_semantics]
              dsimp only
              rw [totalDefs_append, totalDefs_single, hsplit.1]
              rfl
            · rw [addSemantics_semantics]
              dsimp only
              rw [progRefsOKAux_append]
              simp only [progRefsOKAux, Bool.and_eq_true, Bool.and_true]
              refine ⟨hsplit.2.1, ?_⟩
              apply refsBelowB_no_refs
              intro n hn
              simp at hn
            · unfold memoOKb
              rw [addSemantics_operandByName, addSemantics_curDefNo]
              dsimp only
              rw [heq, hone]
              simp only [List.all_append, Bool.and_eq_true]
              constructor
              · have hmemo : memoOKb s = true := hsplit.2.2.1
                exact memoOK_mono s _ (by omega) hmemo
              · simp only [List.all_cons, List.all_nil, Bool.and_true,
                  decide_eq_true_eq]
                omega
            · apply producerOK_addSemantics
              rw [producerOKb_eq]
              dsimp only
              rw [← producerOKb_eq]
              exact hsplit.2.2.2
          · rw [addSemantics_curDefNo]
            dsimp only
            rw [heq, hone]
            omega
    case _ rc hrec =>
      cases h
      constructor
      · apply StateInv_addSemantics _ _ hs
        exact refsBelowB_no_refs _ _ (by intro n hn; simp at hn)
      · rw [addSemantics_curDefNo]
        dsimp only
        rw [heq, hone]
        omega
    case _ => simp at h
  case _ => simp at h

theorem StateInvB_update (s : LinState) (p : PoolState) (hi hc : Bool)
    (ed idf : List TGRecord) (ep : List String) (li : Option Nat) :
    StateInvB { s with
                pool := p
                hasIntrinsic := hi
                hasComplexPattern := hc
                explicitDefs := ed
                implicitDefs := idf
                encounteredPreds := ep
                lastDefSemaIdx := li } = StateInvB s :=
  StateInvB_fields s _ rfl rfl rfl rfl

theorem flattenLeaf_full (ctx : InstCtx) (t : TPN) (s : LinState)
    (r : LSResult) (s' : LinState)
    (hs : StateInvB s = true) (hgood : headNonVoid t.types = true)
    (h : flattenLeaf ctx t s = .ok (r, s')) :
    StateInvB s' = true ∧ r.defNo < s'.curDefNo := by
  unfold flattenLeaf at h
  split at h
  case _ nm ty lv =>
    simp only [TPN.types, headNonVoid_cons] at hgood
    have hone : countNonVoid [ty] = 1 := countNonVoid_single ty hgood
    split at h
    case _ v =>
      cases h
      have hs1 : StateInvB { s with pool := (intern v s.pool).2 } = true := by
        rw [StateInvB_update]
        exact hs
      constructor
      · apply StateInv_addSemantics _ _ hs1
        exact refsBelowB_no_refs _ _ (by intro n hn; simp at hn)
      · rw [addSemantics_curDefNo]
        dsimp only
        rw [hone]
        omega
    case _ rr =>
      split at h
      case _ rn =>
        cases h
        constructor
        · apply StateInv_addSemantics _ _ hs
          exact refsBelowB_no_refs _ _ (by intro n hn; simp at hn)
        · rw [addSemantics_curDefNo]
          dsimp only
          rw [hone]
          omega
      case _ => simp at h
  case _ => simp at h

theorem flattenMutual_full : ∀ fuel : Nat,
    (∀ ctx t s rs s', StateInvB s = true → tpnGoodB ctx t = true →
      flattenSubtree fuel ctx t s = .ok (rs, s') →
      StateInvB s' = true ∧ ∀ r ∈ rs, r.defNo < s'.curDefNo) ∧
    (∀ ctx t s rs s', StateInvB s = true → sdGoodB ctx t = true →
      flattenSDNode fuel ctx t s = .ok (rs, s') →
      StateInvB s' = true ∧ ∀ r ∈ rs, r.defNo < s'.curDefNo) ∧
    (∀ ctx ts s refs s', StateInvB s = true → tpnGoodList ctx ts = true →
      flattenChildren fuel ctx ts s = .ok (refs, s') →
      StateInvB s' = true ∧ ∀ n ∈ refs, n < s'.curDefNo) := by
  intro fuel
  induction fuel with
  | zero =>
    refine ⟨?_, ?_, ?_⟩ <;>
      · intro ctx t s rs s' _ _ h
        simp [flattenSubtree, flattenSDNode, flattenChildren] at h
  | succ fuel ih =>
    obtain ⟨ihSub, ihSD, ihCh⟩ := ih
    refine ⟨?_, ?_, ?_⟩
    · -- flattenSubtree
      intro ctx t s rs s' hs hgood h
      cases t with
      | leaf nm ts lv =>
        rw [tpnGoodB.eq_1] at hgood
        rw [flattenSubtree.eq_2] at h
        split at h
        case _ oi hno =>
          split at h
          case _ e => simp at h
          case _ =>
            rename_i r s1 heq
            cases h
            obtain ⟨h1, h2⟩ := flattenOperand_full ctx (TPN.leaf nm ts lv) oi s _ _
              hs hgood heq
            refine ⟨h1, ?_⟩
            intro x hx
            simp only [List.mem_singleton] at hx
            subst hx
            exact h2
        case _ hno =>
          split at h
          case _ e => simp at h
          case _ =>
            rename_i r s1 heq
            cases h
            obtain ⟨h1, h2⟩ := flattenLeaf_full ctx (TPN.leaf nm ts lv) s _ _
              hs hgood heq
            refine ⟨h1, ?_⟩
            intro x hx
            simp only [List.mem_singleton] at hx
            subst hx
            exact h2
      | node nm ts op preds intr cp children =>
        rw [tpnGoodB.eq_2] at hgood
        rw [flattenSubtree.eq_3] at h
        split at h
        case _ oi hno =>
          rw [if_pos (by rw [show getNamedOperand ctx nm = some oi from hno]; rfl)]
            at hgood
          split at h
          case _ e => simp at h
          case _ =>
            rename_i r s1 heq
            cases h
            obtain ⟨h1, h2⟩ := flattenOperand_full ctx
              (TPN.node nm ts op preds intr cp children) oi s _ _ hs hgood heq
            refine ⟨h1, ?_⟩
            intro x hx
            simp only [List.mem_singleton] at hx
            subst hx
            exact h2
        case _ hno =>
          rw [if_neg (by rw [show getNamedOperand ctx nm = none from hno]; simp)]
            at hgood
          refine ihSD ctx _ s rs s' hs ?_ h
          rw [sdGoodB]
          exact hgood
    · -- flattenSDNode
      intro ctx t s rs s' hs hgood h
      cases t with
      | leaf nm ts lv =>
        rw [flattenSDNode.eq_2] at h
        simp at h
      | node nm ts op preds intr cp children =>
        rw [sdGoodB] at hgood
        simp only [Bool.and_eq_true] at hgood
        obtain ⟨hvl, hchildren⟩ := hgood
        cases op with
        | complexPattern sel =>
          rw [flattenSDNode.eq_3] at h
          split at h
          case _ e => simp at h
          case _ sf hsan =>
            split at h
            case _ e => simp at h
            case _ =>
              rename_i childRefs s1 hch
              cases h
              have hs0 : StateInvB { s with
                  hasIntrinsic := s.hasIntrinsic || intr,
                  hasComplexPattern := false } = true := by
                rw [StateInvB_update]
                exact hs
              obtain ⟨h1, h2⟩ := ihCh ctx children _ _ _ hs0 hchildren hch
              constructor
              · apply StateInv_addSemantics _ _ h1
                apply refsBelowB_of_forall
                intro n hn
                simp only [List.mem_cons, List.mem_map] at hn
                rcases hn with hn | ⟨m, hm, hmn⟩
                · cases hn
                · exact (MOperand.valueRef.inj hmn) ▸ h2 m hm
              · intro r hr
                rw [addSemantics_curDefNo]
                dsimp only
                have := mkResults_bound s1.curDefNo ts hvl r hr
                omega
        | sdnode recName enumName =>
          rw [flattenSDNode.eq_4] at h
          split at h
          case _ e => simp at h
          case _ opc0 tsEff heq =>
            have htsEff : voidsLastB tsEff = true := by
              split at heq
              · split at heq
                · cases heq
                  exact voidsLastB_take ts _ hvl
                · simp at heq
              · cases heq
                exact hvl
            dsimp only at h
            rcases hgl : preds.getLast? with _ | p <;> simp only [hgl] at h
            · split at h
              case _ e => simp at h
              case _ =>
                rename_i childRefs s1 hch
                cases h
                have hs0 : StateInvB { s with
                    hasIntrinsic := s.hasIntrinsic || intr,
                    hasComplexPattern := s.hasComplexPattern || cp } = true := by
                  rw [StateInvB_update]
                  exact hs
                obtain ⟨h1, h2⟩ := ihCh ctx children _ _ _ hs0 hchildren hch
                constructor
                · apply StateInv_addSemantics _ _ h1
                  apply refsBelowB_of_forall
                  intro n hn
                  simp only [List.nil_append, List.mem_map] at hn
                  rcases hn with ⟨m, hm, hmn⟩
                  exact (MOperand.valueRef.inj hmn) ▸ h2 m hm
                · intro r hr
                  rw [addSemantics_curDefNo]
                  dsimp only
                  have := mkResults_bound s1.curDefNo tsEff htsEff r hr
                  omega
            · split at h
              case _ e => simp at h
              case _ =>
                rename_i childRefs s1 hch
                cases h
                have hs0 : StateInvB { s with
                    hasIntrinsic := s.hasIntrinsic || intr
                    hasComplexPattern := s.hasComplexPattern || cp
                    encounteredPreds := insertPred p s.encounteredPreds } = true := by
                  rw [StateInvB_update]
                  exact hs
                obtain ⟨h1, h2⟩ := ihCh ctx children _ _ _ hs0 hchildren hch
                constructor
                · apply StateInv_addSemantics _ _ h1
                  apply refsBelowB_of_forall
                  intro n hn
                  simp only [List.cons_append, List.nil_append, List.mem_cons,
                    List.mem_map] at hn
                  rcases hn with hn | ⟨m, hm, hmn⟩
                  · cases hn
                  · exact (MOperand.valueRef.inj hmn) ▸ h2 m hm
                · intro r hr
                  rw [addSemantics_curDefNo]
                  dsimp only
                  have := mkResults_bound s1.curDefNo tsEff htsEff r hr
                  omega
        | setOp =>
          rw [flattenSDNode.eq_5] at h
          · simp at h
          · intro sel hh
            cases hh
          · intro a b hh
            cases hh
        | implicitOp =>
          rw [flattenSDNode.eq_5] at h
          · simp at h
          · intro sel hh
            cases hh
          · intro a b hh
            cases hh
    · -- flattenChildren
      intro ctx ts s refs s' hs hgood h
      cases ts with
      | nil =>
        rw [flattenChildren.eq_2] at h
        cases h
        exact ⟨hs, by intro n hn; simp at hn⟩
      | cons c rest =>
        rw [tpnGoodList.eq_2] at hgood
        simp only [Bool.and_eq_true] at hgood
        rw [flattenChildren.eq_3] at h
        split at h
        case _ e => simp at h
        case _ =>
          rename_i rs1 s1 hsub
          split at h
          case _ => simp at h
          case _ r rtail =>
            split at h
            case _ e => simp at h
            case _ =>
              rename_i ns s2 hch
              cases h
              obtain ⟨h1, h2⟩ := ihSub ctx c s _ _ hs hgood.1 hsub
              obtain ⟨h3, h4⟩ := ihCh ctx rest s1 _ _ h1 hgood.2 hch
              have hmono : s1.curDefNo ≤ s'.curDefNo :=
                ((flattenMutual_light fuel).2.2 ctx rest s1 _ _ hch).1.2.1
              refine ⟨h3, ?_⟩
              intro n hn
              simp only [List.mem_cons] at hn
              rcases hn with hn | hn
              · subst hn
                have : r.defNo < s1.curDefNo := h2 r (by simp)
                omega
              · exact h4 n hn

theorem refsBelowB_spec (op : LSNode) (b : Nat) (h : refsBelowB op b = true)
    (n : Nat) (hn : MOperand.valueRef n ∈ op.operands) : n < b := by
  simp only [refsBelowB, List.all_eq_true] at h
  have := h _ hn
  simpa using this

theorem tpnGoodList_mem : ∀ (l : List TPN) (ctx : InstCtx),
    tpnGoodList ctx l = true → ∀ t ∈ l, tpnGoodB ctx t = true := by
  intro l
  induction l with
  | nil => intro ctx _ t ht; simp at ht
  | cons c rest ih =>
    intro ctx hg t ht
    rw [tpnGoodList.eq_2] at hg
    simp only [Bool.and_eq_true] at hg
    simp only [List.mem_cons] at ht
    rcases ht with ht | ht
    · subst ht; exact hg.1
    · exact ih ctx hg.2 t ht

theorem flattenSetTarget1_full (ctx : InstCtx) (setTs : List VT) (c : TPN)
    (i : Nat) (crs : List LSResult) (s s' : LinState)
    (hs : StateInvB s = true) (hcrs : ∀ r ∈ crs, r.defNo < s.curDefNo)
    (h : flattenSetTarget1 ctx setTs c i crs s = .ok s') :
    StateInvB s' = true ∧ s.curDefNo ≤ s'.curDefNo := by
  unfold flattenSetTarget1 at h
  split at h
  case _ cname cts opRec =>
    split at h
    case isTrue hlt =>
      have hbound : (crs.getD i default).defNo < s.curDefNo := by
        rw [List.getD_eq_getElem crs default hlt]
        exact hcrs _ (List.getElem_mem hlt)
      split at h
      case _ rc hrec =>
        split at h
        case _ oi hoi =>
          cases h
          constructor
          · apply StateInv_addSemantics _ _ hs
            apply refsBelowB_of_forall
            intro n hn
            simp only [List.mem_cons, List.mem_singleton] at hn
            rcases hn with hn | hn | hn
            · cases hn
            · cases MOperand.valueRef.inj hn
              exact hbound
            · cases hn
          · rw [addSemantics_curDefNo]
            omega
        case _ hoi => simp at h
      case _ rn hrec =>
        cases h
        have hs1 : StateInvB { s with explicitDefs := s.explicitDefs ++ [.register rn] }
            = true := by
          rw [StateInvB_update]
          exact hs
        constructor
        · apply StateInv_addSemantics _ _ hs1
          apply refsBelowB_of_forall
          intro n hn
          simp only [List.mem_cons, List.mem_singleton] at hn
          rcases hn with hn | hn | hn
          · cases hn
          · cases MOperand.valueRef.inj hn
            exact hbound
          · cases hn
        · rw [addSemantics_curDefNo]
          dsimp only
          omega
      case _ hr1 hr2 => simp at h
    case isFalse hlt =>
      split at h
      case _ rn =>
        cases h
        constructor
        · rw [StateInvB_update]
          exact hs
        · exact Nat.le_refl _
      case _ hr => simp at h
  case _ hshape => simp at h

theorem flattenSetTargets_full : ∀ (targets : List TPN) (ctx : InstCtx)
    (setTs : List VT) (i : Nat) (crs : List LSResult) (s s' : LinState),
    StateInvB s = true → (∀ r ∈ crs, r.defNo < s.curDefNo) →
    flattenSetTargets ctx setTs targets i crs s = .ok s' →
    StateInvB s' = true := by
  intro targets
  induction targets with
  | nil =>
    intro ctx setTs i crs s s' hs _ h
    unfold flattenSetTargets at h
    cases h
    exact hs
  | cons c rest ih =>
    intro ctx setTs i crs s s' hs hcrs h
    unfold flattenSetTargets at h
    split at h
    case _ e => simp at h
    case _ s1 h1 =>
      obtain ⟨hi1, hi2⟩ := flattenSetTarget1_full ctx setTs c i crs s s1 hs hcrs h1
      refine ih ctx setTs (i + 1) crs s1 s' hi1 ?_ h
      intro r hr
      have := hcrs r hr
      omega

theorem flattenSet_full (fuel : Nat) (ctx : InstCtx) (t : TPN) (s s' : LinState)
    (hs : StateInvB s = true) (hgood : sdGoodB ctx t = true)
    (h : flattenSet fuel ctx t s = .ok s') : StateInvB s' = true := by
  unfold flattenSet at h
  split at h
  case _ nm ts op preds intr cp children =>
    rw [sdGoodB] at hgood
    simp only [Bool.and_eq_true] at hgood
    split at h
    case _ hlast => simp at h
    case _ lastChild hlast =>
      have hlastGood : tpnGoodB ctx lastChild = true :=
        tpnGoodList_mem children ctx hgood.2 lastChild
          (List.mem_of_mem_getLast? hlast)
      dsimp only at h
      by_cases hnd : children.length - 1 ≤ lastChild.numTypes
      · rw [if_pos hnd] at h
        split at h
        case _ e => simp at h
        case _ =>
          rename_i crs s1 hsub
          obtain ⟨h1, h2⟩ := (flattenMutual_full fuel).1 ctx lastChild s _ _
            hs hlastGood hsub
          exact flattenSetTargets_full _ ctx ts 0 crs s1 s' h1 h2 h
      · rw [if_neg hnd] at h
        simp at h
  case _ => simp at h

theorem flatten_full (fuel : Nat) (ctx : InstCtx) (t : TPN) (s s' : LinState)
    (hs : StateInvB s = true) (hgood : sdGoodB ctx t = true)
    (h : flatten fuel ctx t s = .ok s') : StateInvB s' = true := by
  unfold flatten at h
  split at h
  case _ => simp at h
  case _ nm ts op preds intr cp children =>
    split at h
    · cases h
      exact hs
    · exact flattenSet_full fuel ctx _ s s' hs hgood h
    · split at h
      case _ e => simp at h
      case _ =>
        rename_i rs s1 hsd
        split at h
        case _ he =>
          cases h
          exact ((flattenMutual_full fuel).2.1 ctx _ s _ _ hs hgood hsd).1
        case _ he => simp at h

theorem flattenTrees_full : ∀ (trees : List TPN) (fuel : Nat) (ctx : InstCtx)
    (s s' : LinState), StateInvB s = true →
    trees.all (fun t => sdGoodB ctx t) = true →
    flattenTrees fuel ctx trees s = .ok s' → StateInvB s' = true := by
  intro trees
  induction trees with
  | nil =>
    intro fuel ctx s s' hs _ h
    unfold flattenTrees at h
    cases h
    exact hs
  | cons t rest ih =>
    intro fuel ctx s s' hs hgood h
    simp only [List.all_cons, Bool.and_eq_true] at hgood
    unfold flattenTrees at h
    split at h
    case _ e => simp at h
    case _ s1 h1 =>
      exact ih fuel ctx s1 s' (flatten_full fuel ctx t s s1 hs hgood.1 h1) hgood.2 h

theorem StateInv_init (pool : PoolState) (preds : List String) :
    StateInvB (initLin pool preds) = true := rfl

theorem progRefsOKAux_spec : ∀ (prog : List LSNode) (acc : Nat),
    progRefsOKAux prog acc = true →
    ∀ (j : Nat) (hj : j < prog.length) (n : Nat),
      MOperand.valueRef n ∈ (prog.get ⟨j, hj⟩).operands →
      n < acc + defStart prog j := by
  intro prog
  induction prog with
  | nil => intro acc _ j hj; simp at hj
  | cons op rest ih =>
    intro acc hok j hj n hn
    simp only [progRefsOKAux, Bool.and_eq_true] at hok
    cases j with
    | zero =>
      simp only [defStart, List.take_zero, totalDefs, List.map_nil, List.sum_nil,
        Nat.add_zero]
      exact refsBelowB_spec op acc hok.1 n hn
    | succ j =>
      have hj' : j < rest.length := by simpa using hj
      have := ih (acc + opDefs op) hok.2 j hj' n (by simpa using hn)
      simp only [defStart, List.take_succ_cons, totalDefs, List.map_cons,
        List.sum_cons] at this ⊢
      omega

/-- C6 (amended): in every instruction program accepted by the collector,
provided every node's result-type list keeps voids after non-voids (and
operand/leaf reads have a non-void type), every MicroOp operand that is a
ValueNumber reference refers to a result produced by a MicroOp occurring
strictly earlier in the same program: the referenced number is below the
first value number of the referencing operation — no forward references
and no self-references. -/
theorem program_refs_backward (fuel : Nat) (ctx : InstCtx) (trees : List TPN)
    (pool : PoolState) (preds : List String) (sema : InstSema)
    (pool' : PoolState) (preds' : List String)
    (hgood : trees.all (fun t => sdGoodB ctx t) = true)
    (h : parseInstSemantics fuel ctx trees pool preds = .ok (some sema, pool', preds')) :
    ∀ (j : Nat) (hj : j < sema.semantics.length) (n : Nat),
      MOperand.valueRef n ∈ (sema.semantics.get ⟨j, hj⟩).operands →
      n < defStart sema.semantics j := by
  unfold parseInstSemantics at h
  split at h
  case _ e => simp at h
  case _ s0 htr =>
    have hinv : StateInvB s0 = true :=
      flattenTrees_full trees fuel ctx _ s0 (StateInv_init pool preds) hgood htr
    have hinv2 : StateInvB (computeImplicitDefs ctx s0) = true := by
      rw [StateInvB_fields s0 (computeImplicitDefs ctx s0) rfl rfl rfl rfl]
      exact hinv
    dsimp only at h
    split at h
    case _ hflag => simp at h
    case _ hflag =>
      split at h
      case _ hlen => simp at h
      case _ hlen =>
        split at h
        case _ himp => simp at h
        case _ himp =>
          cases h
          dsimp only
          have hok : progRefsOKAux (computeImplicitDefs ctx s0).semantics 0 = true :=
            ((StateInvB_iff _).mp hinv2).2.1
          intro j hj n hn
          have := progRefsOKAux_spec _ 0 hok j hj n hn
          simpa using this

/-- C5 (amended): provided the node's result-type list keeps voids after
non-voids (and so for its subtrees), the operation emitted by
`flattenSDNode` records for its results exactly the value numbers the
running counter assigns: the recorded ValueNumbers are the consecutive
numbers starting at the total def count of the program before the
operation, one per non-void result type (void results consume no number),
and the counter afterwards equals the total def count of the whole
program — dense, zero-based and strictly increasing in production order. -/
theorem sdnode_results_match_counter (fuel : Nat) (ctx : InstCtx) (t : TPN)
    (s : LinState) (rs : List LSResult) (s' : LinState)
    (hs : StateInvB s = true) (hgood : sdGoodB ctx t = true)
    (h : flattenSDNode fuel ctx t s = .ok (rs, s')) :
    s'.curDefNo = totalDefs s'.semantics ∧
    ∃ pre ns, s'.semantics = pre ++ [ns] ∧
      rs.map LSResult.defNo = List.range' (totalDefs pre) (countNonVoid ns.types) ∧
      s'.curDefNo = totalDefs pre + countNonVoid ns.types := by
  have hfull := (flattenMutual_full fuel).2.1 ctx t s rs s' hs hgood h
  refine ⟨((StateInvB_iff s').mp hfull.1).1, ?_⟩
  cases fuel with
  | zero => simp [flattenSDNode] at h
  | succ fuel =>
    cases t with
    | leaf nm ts lv =>
      rw [flattenSDNode.eq_2] at h
      simp at h
    | node nm ts op preds intr cp children =>
      rw [sdGoodB] at hgood
      simp only [Bool.and_eq_true] at hgood
      obtain ⟨hvl, hchildren⟩ := hgood
      cases op with
      | complexPattern sel =>
        rw [flattenSDNode.eq_3] at h
        split at h
        case _ e => simp at h
        case _ sf hsan =>
          split at h
          case _ e => simp at h
          case _ =>
            rename_i childRefs s1 hch
            cases h
            have hs0 : StateInvB { s with
                hasIntrinsic := s.hasIntrinsic || intr,
                hasComplexPattern := false } = true := by
              rw [StateInvB_update]
              exact hs
            have h1 : StateInvB s1 = true :=
              ((flattenMutual_full fuel).2.2 ctx children _ _ _ hs0 hchildren hch).1
            refine ⟨s1.semantics, _, addSemantics_semantics _ s1, ?_, ?_⟩
            · rw [mkResults_range s1.curDefNo ts hvl, ((StateInvB_iff s1).mp h1).1]
            · rw [addSemantics_curDefNo, ((StateInvB_iff s1).mp h1).1]
      | sdnode recName enumName =>
        rw [flattenSDNode.eq_4] at h
        split at h
        case _ e => simp at h
        case _ opc0 tsEff heq =>
          have htsEff : voidsLastB tsEff = true := by
            split at heq
            · split at heq
              · cases heq
                exact voidsLastB_take ts _ hvl
              · simp at heq
            · cases heq
              exact hvl
          dsimp only at h
          rcases hgl : preds.getLast? with _ | p <;> simp only [hgl] at h
          · split at h
            case _ e => simp at h
            case _ =>
              rename_i childRefs s1 hch
              cases h
              have hs0 : StateInvB { s with
                  hasIntrinsic := s.hasIntrinsic || intr,
                  hasComplexPattern := s.hasComplexPattern || cp } = true := by
                rw [StateInvB_update]
                exact hs
              have h1 : StateInvB s1 = true :=
                ((flattenMutual_full fuel).2.2 ctx children _ _ _ hs0 hchildren hch).1
              refine ⟨s1.semantics, _, addSemantics_semantics _ s1, ?_, ?_⟩
              · rw [mkResults_range s1.curDefNo tsEff htsEff,
                  ((StateInvB_iff s1).mp h1).1]
              · rw [addSemantics_curDefNo, ((StateInvB_iff s1).mp h1).1]
          · split at h
            case _ e => simp at h
            case _ =>
              rename_i childRefs s1 hch
              cases h
              have hs0 : StateInvB { s with
                  hasIntrinsic := s.hasIntrinsic || intr
                  hasComplexPattern := s.hasComplexPattern || cp
                  encounteredPreds := insertPred p s.encounteredPreds } = true := by
                rw [StateInvB_update]
                exact hs
              have h1 : StateInvB s1 = true :=
                ((flattenMutual_full fuel).2.2 ctx children _ _ _ hs0 hchildren hch).1
              refine ⟨s1.semantics, _, addSemantics_semantics _ s1, ?_, ?_⟩
              · rw [mkResults_range s1.curDefNo tsEff htsEff,
                  ((StateInvB_iff s1).mp h1).1]
              · rw [addSemantics_curDefNo, ((StateInvB_iff s1).mp h1).1]
      | setOp =>
        rw [flattenSDNode.eq_5] at h
        · simp at h
        · intro sel hh
          cases hh
        · intro a b hh
          cases hh
      | implicitOp =>
        rw [flattenSDNode.eq_5] at h
        · simp at h
        · intro sel hh
          cases hh
        · intro a b hh
          cases hh

theorem obLookup_append_self (l : List (String × Nat)) (nm : String) (v : Nat)
    (h : obLookup l nm = none) : obLookup (l ++ [(nm, v)]) nm = some v := by
  induction l with
  | nil => simp [obLookup]
  | cons p rest ih =>
    obtain ⟨k, n⟩ := p
    rw [obLookup] at h
    rw [List.cons_append, obLookup]
    split at h
    · exact absurd h (by simp)
    · rename_i hk
      rw [if_neg hk]
      exact ih h

/-- C7: `flattenOperand` memoizes custom-backed operand reads by name and
only those.  A custom-backed read whose name is already in the memo table
returns the stored ValueNumber and leaves the state (in particular the
MicroOp program) untouched; a first custom-backed read emits exactly one
`CUSTOM_OP` and memoizes its name to the fresh ValueNumber, so an
immediately repeated read returns that same number with no new MicroOp;
register-class-backed and immediate-backed reads always emit a fresh
MicroOp (`GET_RC` / `GET_IMMEDIATE`) and never touch the memo table. -/
theorem custom_operand_memoization (ctx : InstCtx) (t : TPN) (oi : OperandInfo)
    (s : LinState) (ty : VT) (opName : String) (n : Nat)
    (hty : t.types = [ty]) :
    (unwrapRegOperand oi.backingRec = .operand opName →
      oi.operandType ≠ "OPERAND_IMMEDIATE" →
      obLookup s.operandByName oi.name = some n →
      flattenOperand ctx t oi s = .ok (⟨n, ty⟩, s)) ∧
    (unwrapRegOperand oi.backingRec = .operand opName →
      oi.operandType ≠ "OPERAND_IMMEDIATE" →
      obLookup s.operandByName oi.name = none →
      ∃ s1, flattenOperand ctx t oi s = .ok (⟨s.curDefNo, ty⟩, s1) ∧
        s1.semantics = s.semantics ++
          [⟨"DCINS::CUSTOM_OP", [ty],
            [.opTypeName (ctx.nsName ++ "::OpTypes::" ++ opName),
             .slotIdx oi.mioperandNo]⟩] ∧
        obLookup s1.operandByName oi.name = some s.curDefNo ∧
        flattenOperand ctx t oi s1 = .ok (⟨s.curDefNo, ty⟩, s1)) ∧
    (∀ rc, unwrapRegOperand oi.backingRec = .registerClass rc →
      ∃ s1, flattenOperand ctx t oi s = .ok (⟨s.curDefNo, ty⟩, s1) ∧
        s1.semantics = s.semantics ++
          [⟨"DCINS::GET_RC", [ty], [.slotIdx oi.mioperandNo]⟩] ∧
        s1.operandByName = s.operandByName) ∧
    (unwrapRegOperand oi.backingRec = .operand opName →
      oi.operandType = "OPERAND_IMMEDIATE" →
      ∃ s1, flattenOperand ctx t oi s = .ok (⟨s.curDefNo, ty⟩, s1) ∧
        s1.semantics = s.semantics ++
          [⟨"DCINS::GET_IMMEDIATE", [ty], [.slotIdx oi.mioperandNo]⟩] ∧
        s1.operandByName = s.operandByName) := by
  refine ⟨?_, ?_, ?_, ?_⟩
  · intro hop himm hmemo
    unfold flattenOperand
    rw [hty, hop]
    simp only [if_neg himm, hmemo]
  · intro hop himm hmemo
    refine ⟨addSemantics ⟨"DCINS::CUSTOM_OP", [ty],
        [.opTypeName (ctx.nsName ++ "::OpTypes::" ++ opName),
         .slotIdx oi.mioperandNo]⟩
        { s with operandByName := s.operandByName ++ [(oi.name, s.curDefNo)] },
      ?_, ?_, ?_, ?_⟩
    · unfold flattenOperand
      rw [hty, hop]
      simp only [if_neg himm, hmemo]
    · rw [addSemantics_semantics]
    · rw [addSemantics_operandByName]
      exact obLookup_append_self s.operandByName oi.name s.curDefNo hmemo
    · unfold flattenOperand
      rw [hty, hop]
      simp only [if_neg himm, addSemantics_operandByName]
      rw [obLookup_append_self s.operandByName oi.name s.curDefNo hmemo]
  · intro rc hop
    refine ⟨addSemantics ⟨"DCINS::GET_RC", [ty], [.slotIdx oi.mioperandNo]⟩ s,
      ?_, ?_, ?_⟩
    · unfold flattenOperand
      rw [hty, hop]
    · rw [addSemantics_semantics]
    · rw [addSemantics_operandByName]
  · intro hop himm
    refine ⟨addSemantics ⟨"DCINS::GET_IMMEDIATE", [ty], [.slotIdx oi.mioperandNo]⟩ s,
      ?_, ?_, ?_⟩
    · unfold flattenOperand
      rw [hty, hop]
      simp only [if_pos himm]
    · rw [addSemantics_semantics]
    · rw [addSemantics_operandByName]

theorem flattenSetTarget1_lengths (ctx : InstCtx) (setTs : List VT) (c : TPN)
    (i : Nat) (rs : List LSResult) (s s1 : LinState)
    (h : flattenSetTarget1 ctx setTs c i rs s = .ok s1) :
    (i < rs.length ∧ s1.semantics.length = s.semantics.length + 1 ∧
      s1.implicitDefs.length = s.implicitDefs.length) ∨
    (rs.length ≤ i ∧ s1.semantics.length = s.semantics.length ∧
      s1.implicitDefs.length = s.implicitDefs.length + 1) := by
  unfold flattenSetTarget1 at h
  split at h
  case _ cname cts opRec =>
    split at h
    case isTrue hlt =>
      left
      refine ⟨hlt, ?_⟩
      split at h
      case _ rc hrec =>
        split at h
        case _ oi hoi =>
          cases h
          rw [addSemantics_semantics, addSemantics_implicitDefs]
          simp
        case _ hoi => simp at h
      case _ rn hrec =>
        cases h
        rw [addSemantics_semantics, addSemantics_implicitDefs]
        simp
      case _ hr1 hr2 => simp at h
    case isFalse hlt =>
      right
      refine ⟨Nat.le_of_not_lt hlt, ?_⟩
      split at h
      case _ rn =>
        cases h
        simp
      case _ hr => simp at h
  case _ hshape => simp at h

/-- C8: the target loop of `flattenSet` treats excess trailing targets (those
whose index is at or past the child result count) specially.  A non-excess
register-class target emits exactly one `PUT_RC` write consuming the result
at its index; a non-excess explicit-register target emits exactly one
`PUT_REG` write and records an explicit def; an excess explicit-register
target is recorded as an implicit def only — no MicroOp is emitted and no
result is consumed; if any excess target is not an explicit register, the
loop never succeeds; and on success the MicroOp count grows by exactly one
per non-excess target while the implicit-def list grows by exactly one per
excess target. -/
theorem set_excess_targets (ctx : InstCtx) (setTs : List VT) (rs : List LSResult) :
    (∀ cname cts opRec rc oi (i : Nat) (s : LinState),
      i < rs.length →
      unwrapRegOperand opRec = .registerClass rc →
      getNamedOperand ctx cname = some oi →
      flattenSetTarget1 ctx setTs (.leaf cname cts (.defLeaf opRec)) i rs s =
        .ok (addSemantics ⟨"DCINS::PUT_RC", setTs,
          [.slotIdx oi.mioperandNo, .valueRef (rs.getD i default).defNo]⟩ s)) ∧
    (∀ cname cts opRec rn (i : Nat) (s : LinState),
      i < rs.length →
      unwrapRegOperand opRec = .register rn →
      flattenSetTarget1 ctx setTs (.leaf cname cts (.defLeaf opRec)) i rs s =
        .ok (addSemantics ⟨"DCINS::PUT_REG", setTs,
          [.regName (ctx.nsName ++ "::" ++ rn),
           .valueRef (rs.getD i default).defNo]⟩
          { s with explicitDefs := s.explicitDefs ++ [.register rn] })) ∧
    (∀ cname cts rn (i : Nat) (s : LinState),
      rs.length ≤ i →
      flattenSetTarget1 ctx setTs (.leaf cname cts (.defLeaf (.register rn))) i rs s =
        .ok { s with implicitDefs := s.implicitDefs ++ [.register rn] }) ∧
    (∀ (targets : List TPN) (i : Nat) (s : LinState) (j : Nat)
        (hj : j < targets.length),
      rs.length ≤ i + j →
      (∀ cname cts rn, targets.get ⟨j, hj⟩ ≠ .leaf cname cts (.defLeaf (.register rn))) →
      ∀ s', flattenSetTargets ctx setTs targets i rs s ≠ .ok s') ∧
    (∀ (targets : List TPN) (i : Nat) (s s' : LinState),
      flattenSetTargets ctx setTs targets i rs s = .ok s' →
      s'.semantics.length = s.semantics.length + min targets.length (rs.length - i) ∧
      s'.implicitDefs.length = s.implicitDefs.length +
        (targets.length - min targets.length (rs.length - i))) := by
  refine ⟨?_, ?_, ?_, ?_, ?_⟩
  · intro cname cts opRec rc oi i s hlt hunwrap hoi
    unfold flattenSetTarget1
    simp only [hunwrap, hoi, if_pos hlt]
  · intro cname cts opRec rn i s hlt hunwrap
    unfold flattenSetTarget1
    simp only [hunwrap, if_pos hlt]
  · intro cname cts rn i s hge
    unfold flattenSetTarget1
    simp only [if_neg (Nat.not_lt.mpr hge)]
  · intro targets
    induction targets with
    | nil =>
      intro i s j hj
      exact absurd hj (by simp)
    | cons c rest ih =>
      intro i s j hj hexc hne s' hok
      unfold flattenSetTargets at hok
      cases j with
      | zero =>
        have hbad : ∀ s1, flattenSetTarget1 ctx setTs c i rs s ≠ .ok s1 := by
          intro s1 h1
          unfold flattenSetTarget1 at h1
          split at h1
          case _ cname cts opRec =>
            split at h1
            case isTrue hlt => omega
            case isFalse hlt =>
              split at h1
              case _ rn => exact hne _ _ _ rfl
              case _ hr => exact Except.noConfusion h1
          case _ hshape => exact Except.noConfusion h1
        split at hok
        case _ e => exact Except.noConfusion hok
        case _ s1 heq => exact hbad s1 heq
      | succ j2 =>
        split at hok
        case _ e => exact Except.noConfusion hok
        case _ s1 heq =>
          exact ih (i + 1) s1 j2 (Nat.lt_of_succ_lt_succ hj)
            (by omega) (fun cname cts rn h => hne cname cts rn h) s' hok
  · intro targets
    induction targets with
    | nil =>
      intro i s s' hok
      unfold flattenSetTargets at hok
      cases hok
      simp
    | cons c rest ih =>
      intro i s s' hok
      unfold flattenSetTargets at hok
      split at hok
      case _ e => exact Except.noConfusion hok
      case _ s1 heq =>
        have h1 := flattenSetTarget1_lengths ctx setTs c i rs s s1 heq
        have h2 := ih (i + 1) s1 s' hok
        rcases h1 with ⟨hlt, hsem, himp⟩ | ⟨hge, hsem, himp⟩ <;>
          [skip; skip] <;> simp only [List.length_cons] <;> omega

/-! ## Witnesses at concrete inputs -/

/-- C1 witness: the accepted `add` instruction satisfies all four
acceptance invariants. -/
theorem parse_accept_invariants_witness :
    semaAdd.hasIntrinsic = false ∧ semaAdd.hasComplexPattern = false ∧
      semaAdd.implicitDefs.length ≤ 1 ∧
      (semaAdd.implicitDefs ≠ [] → ∃ op ∈ semaAdd.semantics, opDefs op ≠ 0) :=
  parse_accept_invariants 20 ctxAdd [treeAdd] initPool [] semaAdd initPool []
    (by decide)

/-- C2 witness: an intrinsic-annotated childless complex-pattern matcher
node leaves `usesIntrinsic = true` and `usesComplexPattern = false`. -/
theorem cp_node_flags_witness :
    cpRunState.hasIntrinsic = true ∧ cpRunState.hasComplexPattern = false := by
  have h := cp_node_flags 10 ctx0 "" [VT.i32] "selectFoo" [] true false []
    (initLin initPool []) cpRunResults cpRunState (by decide)
  exact ⟨h.1 rfl, h.2 (by decide)⟩

/-- C3 witness: re-interning 5 in a fresh pool returns the same index and
pool, and interning three distinct values yields indices 1, 2, 3. -/
theorem intern_idempotent_sequential_witness :
    intern 5 (intern 5 initPool).2 = ((intern 5 initPool).1, (intern 5 initPool).2) ∧
    (internTrace [3, 7, 9] initPool).1 = List.range' 1 [3, 7, 9].length := by
  have h := intern_idempotent_sequential
  exact ⟨h.1 5 initPool (by decide), h.2.1 [3, 7, 9] (by decide) (by decide)⟩

/-- C5 witness: the `add` node records ValueNumber 2 for its single result,
exactly the range the counter assigns past the two operand reads. -/
theorem sdnode_results_match_counter_witness :
    addRunState.curDefNo = totalDefs addRunState.semantics ∧
    ∃ pre ns, addRunState.semantics = pre ++ [ns] ∧
      addRunResults.map LSResult.defNo
        = List.range' (totalDefs pre) (countNonVoid ns.types) ∧
      addRunState.curDefNo = totalDefs pre + countNonVoid ns.types :=
  sdnode_results_match_counter 10 ctxAdd treeAddNode (initLin initPool [])
    addRunResults addRunState (by decide) (by decide) (by decide)

/-- C6 witness: in the accepted `add` program, the write's reference to
ValueNumber 2 points strictly before the writing operation. -/
theorem program_refs_backward_witness :
    (2 : Nat) < defStart semaAdd.semantics 3 :=
  program_refs_backward 20 ctxAdd [treeAdd] initPool [] semaAdd initPool []
    (by decide) (by decide) 3 (by decide) 2 (by decide)

/-- C7 witness: a first read of the custom-backed operand `imm` emits one
`CUSTOM_OP`, memoizes `imm` to ValueNumber 0, and a repeated read returns
that number with no new MicroOp. -/
theorem custom_operand_memoization_witness :
    ∃ s1, flattenOperand ctx0 tCustom oiCustom (initLin initPool [])
        = .ok (⟨(initLin initPool []).curDefNo, VT.i32⟩, s1) ∧
      s1.semantics = (initLin initPool []).semantics ++
        [⟨"DCINS::CUSTOM_OP", [VT.i32],
          [.opTypeName (ctx0.nsName ++ "::OpTypes::" ++ "CustomImm"),
           .slotIdx oiCustom.mioperandNo]⟩] ∧
      obLookup s1.operandByName oiCustom.name
        = some (initLin initPool []).curDefNo ∧
      flattenOperand ctx0 tCustom oiCustom s1
        = .ok (⟨(initLin initPool []).curDefNo, VT.i32⟩, s1) :=
  (custom_operand_memoization ctx0 tCustom oiCustom (initLin initPool [])
    VT.i32 "CustomImm" 0 rfl).2.1 rfl (by decide) rfl

/-- C8 witness: two explicit-register targets against one child result —
one write MicroOp is emitted and one implicit def is recorded. -/
theorem set_excess_targets_witness :
    setRunState.semantics.length = (initLin initPool []).semantics.length +
      min targetsW.length (rsW.length - 0) ∧
    setRunState.implicitDefs.length = (initLin initPool []).implicitDefs.length +
      (targetsW.length - min targetsW.length (rsW.length - 0)) :=
  (set_excess_targets ctx0 [] rsW).2.2.2.2 targetsW 0 (initLin initPool [])
    setRunState (by decide)

/-- C9 witness: reading the constant leaf `5` from a fresh state returns
result 0 and emits one `GET_CONSTANT` whose operand is the interned index
minus one. -/
theorem constant_read_operand_witness :
    const5Run.1 = ⟨(initLin initPool []).curDefNo, VT.i64⟩ ∧
    const5Run.2.semantics = (initLin initPool []).semantics ++
      [⟨"DCINS::GET_CONSTANT", [VT.i64],
        [.constIdx (if (intern 5 (initLin initPool []).pool).1 = 0
                    then 18446744073709551615
                    else (intern 5 (initLin initPool []).pool).1 - 1)]⟩] ∧
    const5Run.2.pool = (intern 5 (initLin initPool []).pool).2 :=
  (constant_read_operand).1 ctx0 "" VT.i64 5 (initLin initPool [])
    const5Run.1 const5Run.2 (by decide)

/-- C10 witness: on `SelectFoo<i32>`, where the bracketed suffix ends the
name, the code's transform agrees with the claim's transform. -/
theorem sanitize_select_behavior_witness :
    sanitizeSelectFuncToEnumVal
        (String.mk ("SelectFoo<i32>" : String).toList)
      = .ok (String.mk (claimSanitizeRest
          ((("SelectFoo<i32>" : String).toList).drop 6))) :=
  (sanitize_select_behavior).2.2.2 ("SelectFoo<i32>" : String).toList
    ("Foo<i32" : String).toList (by decide) (by decide) (by decide) (by decide)
